import Mathlib

/-!
Verification of the bandsim bandwidth scheduler (a shallow embedding of
src/bandsim translated from the Rust source).

Conventions of the embedding:
* Rust `usize` is modelled as `Nat`; all the arithmetic in the source is
  checked (panics on overflow/underflow), and every subtraction performed by
  the code is shown (or hypothesised) to be non-truncating where it matters.
* `BTreeMap<K, V>` is modelled as an association list `List (K × V)` whose
  entries appear in key order; iteration over a map is iteration over the
  list.  `ShardUId` always has `version = 0` in this program (the constructor
  `ShardUId::new` pins it and `Debug::fmt` panics otherwise), so a shard id is
  modelled by its `shard_id` field, a `Nat`.
* Rust panics (assert!, expect, panic!) are modelled by `Option`: a function
  that can panic returns `none` in the panic case.
* The RNG (`rand::StdRng`) is modelled as an abstract family of shuffle
  functions `Nat → List α → List α` (the `Nat` argument counts the successive
  calls, standing for the evolving RNG state); theorems that need the shuffle
  to be an actual permutation take that as a hypothesis.
-/

/-- Maximum number of bytes that a shard can send or receive at a single
height (src/bandsim/chain.rs). -/
def MAX_SHARD_BANDWIDTH : Nat := 4500000

/-- Minimum size of a single receipt (src/bandsim/chain.rs). -/
def MIN_RECEIPT_SIZE : Nat := 1000

/-- Maximum size of a single receipt (src/bandsim/chain.rs). -/
def MAX_RECEIPT_SIZE : Nat := 4000000

/-- Number of requestable bandwidth values (src/bandsim/bandwidth_request.rs). -/
def BANDWIDTH_REQUEST_VALUES_NUM : Nat := 40

/-- Size in bytes of the bitmap's backing array
(src/bandsim/bandwidth_request.rs); `40 / 8 + 40 % 8 = 5`. -/
def BANDWIDTH_REQUEST_BITMAP_ARRAY_SIZE : Nat :=
  BANDWIDTH_REQUEST_VALUES_NUM / 8 + BANDWIDTH_REQUEST_VALUES_NUM % 8

/-- Max allowance that a ShardLink can acquire
(src/bandsim/bandwidth_scheduler/mod.rs). -/
def MAX_ALLOWANCE : Nat := MAX_SHARD_BANDWIDTH

/-- The maximum size of "base" bandwidth granted to all shards
(src/bandsim/bandwidth_scheduler/mod.rs). -/
def MAX_BASE_BANDWIDTH : Nat := 100000

/-- `BandwidthRequestBitmap([u8; 5])`: the packed 40-bit bitmap, modelled as
the list of its 5 bytes. -/
abbrev BandwidthRequestBitmap : Type := List Nat

/-- `BandwidthRequestBitmap::new`: all five bytes zero. -/
def BandwidthRequestBitmap.new : BandwidthRequestBitmap :=
  List.replicate BANDWIDTH_REQUEST_BITMAP_ARRAY_SIZE 0

/-- `BandwidthRequestBitmap::len`: always 40. -/
def BandwidthRequestBitmap.len (_b : BandwidthRequestBitmap) : Nat :=
  BANDWIDTH_REQUEST_VALUES_NUM

/-- `BandwidthRequestBitmap::set_bit`: `byte = self.0[index / 8]`,
`bit_num = index % 8`, set or clear that bit (the clear mask `!(1u8 << n)` is
`255 ^^^ (1 <<< n)` on a byte).  The source panics when `index >= 40`; every
caller (and every theorem below) keeps the index in range, where that panic
branch is unreachable. -/
def BandwidthRequestBitmap.set_bit (b : BandwidthRequestBitmap) (index : Nat)
    (value : Bool) : BandwidthRequestBitmap :=
  b.set (index / 8)
    (if value then b.getD (index / 8) 0 ||| (1 <<< (index % 8))
     else b.getD (index / 8) 0 &&& (255 ^^^ (1 <<< (index % 8))))

/-- `BandwidthRequestBitmap::get_bit`: `((byte >> bit_num) & 1) == 1`
(in-range indices; see `set_bit`). -/
def BandwidthRequestBitmap.get_bit (b : BandwidthRequestBitmap)
    (index : Nat) : Bool :=
  ((b.getD (index / 8) 0 >>> (index % 8)) &&& 1) == 1

/-- `BandwidthRequestBitmap::is_all_false`. -/
def BandwidthRequestBitmap.is_all_false (b : BandwidthRequestBitmap) : Bool :=
  b.all (fun x => x == 0)

/-- The i-th raw linear interpolation value of `BandwidthRequestValues::new`:
`values[i] = base + (max - base) * (i + 1) / 40`. -/
def BandwidthRequestValues.rawVal (base_bandwidth max_bandwidth i : Nat) : Nat :=
  base_bandwidth +
    (max_bandwidth - base_bandwidth) * (i + 1) / BANDWIDTH_REQUEST_VALUES_NUM

/-- The raw ladder of `BandwidthRequestValues::new` (before the
`MAX_RECEIPT_SIZE` replacement step). -/
def BandwidthRequestValues.raw (base_bandwidth max_bandwidth : Nat) : List Nat :=
  (List.range BANDWIDTH_REQUEST_VALUES_NUM).map
    (BandwidthRequestValues.rawVal base_bandwidth max_bandwidth)

/-- The fold of `BandwidthRequestValues::new` that finds the entry closest to
`MAX_RECEIPT_SIZE` (`usize::abs_diff` is `Nat.dist`; ties keep the earlier
candidate because the comparison is strict). -/
def BandwidthRequestValues.closestToMax (values : List Nat) : Nat :=
  values.foldl (fun closest_to_max value =>
    if Nat.dist value MAX_RECEIPT_SIZE < Nat.dist closest_to_max MAX_RECEIPT_SIZE
    then value else closest_to_max) 0

/-- `values.windows(2).all(|w| w[0] < w[1])`: the strict-sortedness check of
`BandwidthRequestValues::new`. -/
def BandwidthRequestValues.values_sorted : List Nat → Bool
  | [] => true
  | [_] => true
  | a :: b :: rest => decide (a < b) && BandwidthRequestValues.values_sorted (b :: rest)

/-- The ladder after the replacement step of `BandwidthRequestValues::new`:
every entry equal to the one closest to `MAX_RECEIPT_SIZE` is replaced by
`MAX_RECEIPT_SIZE`. -/
def BandwidthRequestValues.replaced (base_bandwidth max_bandwidth : Nat) :
    List Nat :=
  (BandwidthRequestValues.raw base_bandwidth max_bandwidth).map (fun v =>
    if v = BandwidthRequestValues.closestToMax
        (BandwidthRequestValues.raw base_bandwidth max_bandwidth)
    then MAX_RECEIPT_SIZE else v)

/-- `BandwidthRequestValues::new`.  `none` models the two panics of the
source: the `assert_eq!(max_bandwidth, MAX_SHARD_BANDWIDTH)` and the
"Values not sorted!" panic.  (The subtraction `max - base` is a checked
`usize` subtraction in the source; for `base > max` the truncating `Nat`
subtraction used here makes the ladder constant, which the sortedness check
rejects just as the source panics, so no behaviour relevant to the claims
differs.) -/
def BandwidthRequestValues.new (base_bandwidth max_bandwidth : Nat) :
    Option (List Nat) :=
  if max_bandwidth = MAX_SHARD_BANDWIDTH then
    if BandwidthRequestValues.values_sorted
        (BandwidthRequestValues.replaced base_bandwidth max_bandwidth)
    then some (BandwidthRequestValues.replaced base_bandwidth max_bandwidth)
    else none
  else none

/-- `BandwidthRequest { to_shard, grant_options_bitmap }`. -/
structure BandwidthRequest where
  to_shard : Nat
  grant_options_bitmap : BandwidthRequestBitmap
  deriving DecidableEq

/-- The inner `while cur_value < values.len() && values[cur_value] < total_size`
advance of `BandwidthRequest::from_receipt_sizes`, counted on the suffix of
the ladder starting at the cursor: the new cursor is
`cur_value + advanceWhile (values.drop cur_value) total_size`. -/
def advanceWhile (vals : List Nat) (total_size : Nat) : Nat :=
  match vals with
  | [] => 0
  | v :: rest => if v < total_size then advanceWhile rest total_size + 1 else 0

/-- The `for receipt_size in receipt_sizes` loop of
`BandwidthRequest::from_receipt_sizes`, threading the running `total_size`,
the ladder cursor `cur_value` and the bitmap. -/
def fromSizesLoop (values : List Nat) (base_bandwidth : Nat)
    (receipt_sizes : List Nat) (total_size cur_value : Nat)
    (bitmap : BandwidthRequestBitmap) : BandwidthRequestBitmap :=
  match receipt_sizes with
  | [] => bitmap
  | receipt_size :: rest =>
    let total2 := total_size + receipt_size
    if total2 ≤ base_bandwidth then
      fromSizesLoop values base_bandwidth rest total2 cur_value bitmap
    else
      let cur2 := cur_value + advanceWhile (values.drop cur_value) total2
      if cur2 = values.length then
        -- sets the last bit and breaks out of the loop
        bitmap.set_bit (bitmap.len - 1) true
      else
        fromSizesLoop values base_bandwidth rest total2 cur2
          (bitmap.set_bit cur2 true)

/-- `BandwidthRequest::from_receipt_sizes`.  The outer `Option` models the
panic inside `BandwidthRequestValues::new`; the inner `Option` is the
function's own return value (`None` when no bit was set). -/
def BandwidthRequest.from_receipt_sizes (to_shard : Nat)
    (receipt_sizes : List Nat) (base_bandwidth max_bandwidth : Nat) :
    Option (Option BandwidthRequest) :=
  match BandwidthRequestValues.new base_bandwidth max_bandwidth with
  | none => none
  | some values =>
    let bitmap := fromSizesLoop values base_bandwidth receipt_sizes 0 0
      BandwidthRequestBitmap.new
    some (if bitmap.is_all_false then none
      else some { to_shard := to_shard, grant_options_bitmap := bitmap })

/-- `BandwidthRequestOptions::from_bitmap`: the sorted absolute grant values
selected by the bitmap's set bits.  The `Option` models the panic inside
`BandwidthRequestValues::new`. -/
def BandwidthRequestOptions.from_bitmap (bitmap : BandwidthRequestBitmap)
    (base_bandwidth max_bandwidth : Nat) : Option (List Nat) :=
  match BandwidthRequestValues.new base_bandwidth max_bandwidth with
  | none => none
  | some values =>
    some (((List.range bitmap.len).filter (fun i => bitmap.get_bit i)).map
      (fun i => values.getD i 0))

/-- `ShardUId`: modelled by its `shard_id` field alone; the `version` field
is pinned to 0 by `ShardUId::new` (and `Debug::fmt` panics if it is ever
nonzero), so it carries no information in this program.  The derived order on
`ShardUId` is then the numeric order on `shard_id`. -/
abbrev ShardUId : Type := Nat

/-- `ShardLink { from, to }`: the ordered pair of shards; `.1` is the sending
(`from`) shard and `.2` the receiving (`to`) shard.  The derived `Ord` is
lexicographic on `(from, to)`. -/
abbrev ShardLink : Type := ShardUId × ShardUId

/-- `BandwidthIncreaseRequests { shard_link, bandwidth_increases }`: a
bandwidth request translated so that each entry is an increase over the
previous option (the `VecDeque` is a list popped from the front). -/
structure BandwidthIncreaseRequests where
  shard_link : ShardLink
  bandwidth_increases : List Nat
  deriving DecidableEq

/-- The delta loop of `BandwidthIncreaseRequests::from_bandwidth_request`:
walking the absolute grant options, each must strictly exceed the running
`last_option` (`assert!(bandwidth_option > last_option)`, modelled as
`none`), and the emitted delta is the difference. -/
def increasesLoop (last_option : Nat) (grant_options : List Nat) :
    Option (List Nat) :=
  match grant_options with
  | [] => some []
  | bandwidth_option :: rest =>
    if bandwidth_option ≤ last_option then none
    else
      match increasesLoop bandwidth_option rest with
      | none => none
      | some tail => some ((bandwidth_option - last_option) :: tail)

/-- `BandwidthIncreaseRequests::from_bandwidth_request`.  `none` models the
`assert_eq!(shard_link.to, bandwidth_request.to_shard)`, the panic inside the
bitmap decoding, and the `assert!(bandwidth_option > last_option)`. -/
def BandwidthIncreaseRequests.from_bandwidth_request (shard_link : ShardLink)
    (bandwidth_request : BandwidthRequest) (base_bandwidth : Nat) :
    Option BandwidthIncreaseRequests :=
  if shard_link.2 = bandwidth_request.to_shard then
    match BandwidthRequestOptions.from_bitmap
        bandwidth_request.grant_options_bitmap base_bandwidth
        MAX_SHARD_BANDWIDTH with
    | none => none
    | some grant_options =>
      match increasesLoop base_bandwidth grant_options with
      | none => none
      | some bandwidth_increases =>
        some (BandwidthIncreaseRequests.mk shard_link bandwidth_increases)
  else none

/-- Sum of the values of a `Map<ShardUId, usize>` (modelled as an assoc
list): `map.iter().map(|(_, bandwidth)| bandwidth).sum()`. -/
def mapValsSum (m : List (ShardUId × Nat)) : Nat := (m.map (fun e => e.2)).sum

/-- Sum over a grant map of the grants sent by shard `s`:
`Σ_to grants[(s, to)]`. -/
def sumFrom (grants : List (ShardLink × Nat)) (s : ShardUId) : Nat :=
  ((grants.filter (fun g => g.1.1 == s)).map (fun g => g.2)).sum

/-- Sum over a grant map of the grants received by shard `s`:
`Σ_from grants[(from, s)]`. -/
def sumTo (grants : List (ShardLink × Nat)) (s : ShardUId) : Nat :=
  ((grants.filter (fun g => g.1.2 == s)).map (fun g => g.2)).sum

/-- Total value a `Map<ShardUId, usize>` assigns to shard `s` (for an actual
map — distinct keys — this is the value stored under `s`, or 0). -/
def lookupSum (m : List (ShardUId × Nat)) (s : ShardUId) : Nat :=
  ((m.filter (fun e => e.1 == s)).map (fun e => e.2)).sum

/-- The lexicographic order on `(bandwidth, shard)` pairs used by
`left_by_bandwidth.sort()` / `right_by_bandwidth.sort()` (the derived `Ord`
on tuples). -/
def pairLe (a b : Nat × Nat) : Prop :=
  a.1 < b.1 ∨ (a.1 = b.1 ∧ a.2 ≤ b.2)

instance : DecidableRel pairLe := fun a b => by
  unfold pairLe
  exact inferInstance

instance : IsTotal (Nat × Nat) pairLe := ⟨by
  intro a b
  rcases a with ⟨a1, a2⟩
  rcases b with ⟨b1, b2⟩
  unfold pairLe
  simp only
  omega⟩

instance : IsTrans (Nat × Nat) pairLe := ⟨by
  intro a b c h1 h2
  unfold pairLe at h1 h2 ⊢
  omega⟩

/-- `Vec::sort` on `(bandwidth, shard)` pairs.  Rust uses a stable sort by
the total lexicographic order; sorting by a total order determines the output
list uniquely (equal elements are literally identical pairs here), so the
structurally recursive insertion sort used in this embedding produces exactly
the same list. -/
def sortPairs (l : List (Nat × ShardUId)) : List (Nat × ShardUId) :=
  List.insertionSort pairLe l

/-- The inner `for (right_bandwidth, right_shard) in right_by_bandwidth`
loop of `distribute_remaining_bandwidth`, for one left row.  `right_num` is
the number of remaining right entries (`rest.length + 1`), decremented as the
loop advances; `left_num` is fixed during the row.  Returns the final
`left_bandwidth`, the updated right entries (decremented in place) and the
granted amounts `(right_shard, granted_bandwidth)` in iteration order. -/
def innerRow (left_num left_bandwidth : Nat)
    (rights : List (Nat × ShardUId)) :
    Nat × List (Nat × ShardUId) × List (ShardUId × Nat) :=
  match rights with
  | [] => (left_bandwidth, [], [])
  | (right_bandwidth, right_shard) :: rest =>
    let right_num := rest.length + 1
    let left_max := left_bandwidth / right_num + left_bandwidth % right_num
    let right_max := right_bandwidth / left_num + right_bandwidth % left_num
    let granted_bandwidth := min left_max right_max
    let out := innerRow left_num (left_bandwidth - granted_bandwidth) rest
    (out.1, (right_bandwidth - granted_bandwidth, right_shard) :: out.2.1,
      (right_shard, granted_bandwidth) :: out.2.2)

/-- The outer `for (left_bandwidth, left_shard) in left_by_bandwidth` loop of
`distribute_remaining_bandwidth`.  `left_num` is the number of remaining left
rows including the current one (the source starts it at the full length and
decrements after each row).  `none` models the `assert_eq!(left_bandwidth,
0)` panic at the end of a row. -/
def outerRows (lefts rights : List (Nat × ShardUId)) :
    Option (List (ShardLink × Nat) × List (Nat × ShardUId)) :=
  match lefts with
  | [] => some ([], rights)
  | (left_bandwidth, left_shard) :: restLefts =>
    let left_num := restLefts.length + 1
    let row := innerRow left_num left_bandwidth rights
    if row.1 = 0 then
      match outerRows restLefts row.2.1 with
      | none => none
      | some (grants, rightsFinal) =>
        some ((row.2.2.map (fun e => ((left_shard, e.1), e.2))) ++ grants,
          rightsFinal)
    else none

/-- The main (non-flipped) branch of `distribute_remaining_bandwidth`,
reached when `Σ left ≤ Σ right`.  The returned grant list has pairwise
distinct links whenever the input maps have distinct keys, so it is exactly
the content of the `BTreeMap` the source builds by `insert`. -/
def distributeSorted (left right : List (ShardUId × Nat)) :
    Option (List (ShardLink × Nat)) :=
  let left_by_bandwidth := sortPairs (left.map (fun e => (e.2, e.1)))
  let right_by_bandwidth := sortPairs (right.map (fun e => (e.2, e.1)))
  match outerRows left_by_bandwidth right_by_bandwidth with
  | none => none
  | some (grants, _) => some grants

/-- `distribute_remaining_bandwidth`.  When `Σ right < Σ left` the source
calls itself with the arguments swapped and flips every link of the result;
the recursive call then takes the non-flipped branch (its right sum is larger
than its left sum), i.e. it computes `distributeSorted right left`, which is
how the single recursion step is rendered here.  `none` models the
`assert_eq!` panic inside (shown unreachable below). -/
def distribute_remaining_bandwidth (left right : List (ShardUId × Nat)) :
    Option (List (ShardLink × Nat)) :=
  if mapValsSum right < mapValsSum left then
    match distributeSorted right left with
    | none => none
    | some flipped_res =>
      some (flipped_res.map (fun e => ((e.1.2, e.1.1), e.2)))
  else distributeSorted left right

/-- Helper abbreviation: the grant computed at one inner step of
`distribute_remaining_bandwidth` (`min(left_max, right_max)`). -/
def stepGrant (left_num right_num left_bandwidth right_bandwidth : Nat) : Nat :=
  min (left_bandwidth / right_num + left_bandwidth % right_num)
    (right_bandwidth / left_num + right_bandwidth % left_num)

/-- Sum of the remaining right bandwidth attributed to shard `r` (for a map
with distinct shards, the remaining value of `r`'s entry). -/
def colVal (rights : List (Nat × ShardUId)) (r : ShardUId) : Nat :=
  ((rights.filter (fun e => e.2 == r)).map (fun e => e.1)).sum

/-- `Chunk` (src/bandsim/chain.rs). -/
structure Chunk where
  prev_incoming_receipts_size : Nat
  prev_outgoing_receipts_size : List (ShardUId × Nat)
  bandwidth_requests : List BandwidthRequest

/-- `Block` (src/bandsim/chain.rs); `chunks` is a `BTreeMap<ShardUId,
Option<Chunk>>`, modelled as an assoc list in key order. -/
structure Block where
  height : Nat
  chunks : List (ShardUId × Option Chunk)

/-- First-match lookup in an assoc-list map (`BTreeMap::get`; with distinct
keys the position of a key in the list is immaterial). -/
def mapGet {K V : Type} [DecidableEq K] (m : List (K × V)) (k : K) :
    Option V :=
  match m with
  | [] => none
  | (k2, v) :: rest => if k2 = k then some v else mapGet rest k

/-- Lookup with default (`map.get(&k).copied().unwrap_or_default()`). -/
def mapGetD {K V : Type} [DecidableEq K] (m : List (K × V)) (k : K)
    (d : V) : V :=
  (mapGet m k).getD d

/-- `BTreeMap::insert`: replace the value of an existing key, or add the
key.  The entry list is kept in insertion order rather than key order; the
only map the scheduler ever iterates (the two limit maps, handed to
`distribute_remaining_bandwidth`) is canonicalized there by the
value-ordered sort, so the list order is observationally irrelevant, and
every property proved below is stated through order-insensitive reads
(`mapGetD`, filtered sums). -/
def mapUpdate {K V : Type} [DecidableEq K] (m : List (K × V)) (k : K)
    (v : V) : List (K × V) :=
  match m with
  | [] => [(k, v)]
  | (k2, v2) :: rest =>
    if k2 = k then (k, v) :: rest else (k2, v2) :: mapUpdate rest k v

/-- `map.entry(k).or_insert(0)`: ensure the key exists (with value 0). -/
def mapOrInsertZero {K : Type} [DecidableEq K] (m : List (K × Nat))
    (k : K) : List (K × Nat) :=
  match mapGet m k with
  | none => mapUpdate m k 0
  | some _ => m

/-- `BandwidthScheduler` (src/bandsim/bandwidth_scheduler/mod.rs).  The
field name `granted_bandwdith` keeps the source's spelling. -/
structure BandwidthScheduler where
  allowances : List (ShardLink × Nat)
  granted_bandwdith : List (ShardLink × Nat)
  incoming_limits : List (ShardUId × Nat)
  outgoing_limits : List (ShardUId × Nat)

/-- `BandwidthScheduler::new`. -/
def BandwidthScheduler.new : BandwidthScheduler :=
  BandwidthScheduler.mk [] [] [] []

/-- `BandwidthScheduler::get_allowance`. -/
def BandwidthScheduler.get_allowance (st : BandwidthScheduler)
    (shard_link : ShardLink) : Nat :=
  mapGetD st.allowances shard_link 0

/-- `BandwidthScheduler::set_allowance`. -/
def BandwidthScheduler.set_allowance (st : BandwidthScheduler)
    (shard_link : ShardLink) (amount : Nat) : BandwidthScheduler :=
  { st with allowances := mapUpdate st.allowances shard_link amount }

/-- `BandwidthScheduler::add_allowance` (saturating at `MAX_ALLOWANCE`). -/
def BandwidthScheduler.add_allowance (st : BandwidthScheduler)
    (shard_link : ShardLink) (amount : Nat) : BandwidthScheduler :=
  let cur_allowance := st.get_allowance shard_link + amount
  st.set_allowance shard_link
    (if cur_allowance > MAX_ALLOWANCE then MAX_ALLOWANCE else cur_allowance)

/-- `BandwidthScheduler::decrease_allowance` (saturating at 0). -/
def BandwidthScheduler.decrease_allowance (st : BandwidthScheduler)
    (shard_link : ShardLink) (amount : Nat) : BandwidthScheduler :=
  st.set_allowance shard_link (st.get_allowance shard_link - amount)

/-- `BandwidthScheduler::get_base_bandwidth`. -/
def BandwidthScheduler.get_base_bandwidth (num_shards : Nat) : Nat :=
  let base_bandwidth := (MAX_SHARD_BANDWIDTH - MAX_RECEIPT_SIZE) / num_shards
  if base_bandwidth > MAX_BASE_BANDWIDTH then MAX_BASE_BANDWIDTH
  else base_bandwidth

/-- `BandwidthScheduler::try_grant_additional_bandwidth`.  The boolean is
`Ok`/`Err(NotEnoughBandwidthError)`; note that the two
`entry(..).or_insert(0)` calls mutate the limit maps even when the grant
fails, which the returned state reflects. -/
def BandwidthScheduler.try_grant_additional_bandwidth
    (st : BandwidthScheduler) (shard_link : ShardLink)
    (bandwidth_increase : Nat) : BandwidthScheduler × Bool :=
  let st1 := { st with
    outgoing_limits := mapOrInsertZero st.outgoing_limits shard_link.1,
    incoming_limits := mapOrInsertZero st.incoming_limits shard_link.2 }
  let outgoing_limit := mapGetD st1.outgoing_limits shard_link.1 0
  let incoming_limit := mapGetD st1.incoming_limits shard_link.2 0
  if bandwidth_increase > outgoing_limit ∨ bandwidth_increase > incoming_limit
  then (st1, false)
  else
    ({ st1 with
        granted_bandwdith := mapUpdate st1.granted_bandwdith shard_link
          (mapGetD st1.granted_bandwdith shard_link 0 + bandwidth_increase),
        outgoing_limits := mapUpdate st1.outgoing_limits shard_link.1
          (outgoing_limit - bandwidth_increase),
        incoming_limits := mapUpdate st1.incoming_limits shard_link.2
          (incoming_limit - bandwidth_increase) }, true)

/-- `requests_by_allowance : BTreeMap<usize, RequestGroup>` modelled as an
assoc list in ascending key order (kept sorted by `groupsInsert`, so
`pop_last` is the maximum-allowance group). -/
abbrev GroupMap : Type := List (Nat × List BandwidthIncreaseRequests)

/-- `requests_by_allowance.entry(allowance).or_insert(RequestGroup{requests:
vec![]}).requests.push(request)`: sorted insert, appending to an existing
group. -/
def groupsInsert (groups : GroupMap) (allowance : Nat)
    (request : BandwidthIncreaseRequests) : GroupMap :=
  match groups with
  | [] => [(allowance, [request])]
  | (k, rs) :: rest =>
    if allowance < k then (allowance, [request]) :: (k, rs) :: rest
    else if k = allowance then (k, rs ++ [request]) :: rest
    else (k, rs) :: groupsInsert rest allowance request

/-- The `for mut request in request_group.requests` body of the main
scheduler loop: pop the front bandwidth increase (skip the request if its
queue is empty), try to grant it, and on success decrease the allowance and
re-insert the request under its new allowance. -/
def processGroup (requests : List BandwidthIncreaseRequests)
    (groups : GroupMap) (st : BandwidthScheduler) :
    GroupMap × BandwidthScheduler :=
  requests.foldl (fun acc request =>
    match request.bandwidth_increases with
    | [] => acc
    | bandwidth_increase :: restIncreases =>
      let res := acc.2.try_grant_additional_bandwidth request.shard_link
        bandwidth_increase
      if res.2 then
        let st2 := res.1.decrease_allowance request.shard_link
          bandwidth_increase
        (groupsInsert acc.1 (st2.get_allowance request.shard_link)
          (BandwidthIncreaseRequests.mk request.shard_link restIncreases),
          st2)
      else (acc.1, res.1)) (groups, st)

/-- The `while !requests_by_allowance.is_empty()` loop of
`BandwidthScheduler::run`: pop the maximum-allowance group, shuffle it, and
process its requests.  The Rust loop carries no fuel; the fuel here is an
upper bound on the number of iterations (`run` passes `groupsMeasure + 1`,
shown sufficient below), and exhausting it with groups still pending is an
artificial `none` state proved unreachable. -/
def schedLoop
    (shuffle : Nat → List BandwidthIncreaseRequests →
      List BandwidthIncreaseRequests)
    (step fuel : Nat) (groups : GroupMap) (st : BandwidthScheduler) :
    Option BandwidthScheduler :=
  match fuel with
  | 0 =>
    match groups.getLast? with
    | none => some st
    | some _ => none
  | fuel2 + 1 =>
    match groups.getLast? with
    | none => some st
    | some g =>
      let out := processGroup (shuffle step g.2) groups.dropLast st
      schedLoop shuffle (step + 1) fuel2 out.1 out.2

/-- Building `requests_by_allowance` from the previous block's chunks
(step 5 of `run`); `none` propagates the panic inside
`BandwidthIncreaseRequests::from_bandwidth_request`. -/
def buildRequests (st : BandwidthScheduler)
    (chunks : List (ShardUId × Option Chunk)) (base_bandwidth : Nat) :
    Option GroupMap :=
  chunks.foldl (fun acc e =>
    match acc with
    | none => none
    | some groups =>
      match e.2 with
      | none => some groups
      | some chunk =>
        chunk.bandwidth_requests.foldl (fun acc2 bandwidth_request =>
          match acc2 with
          | none => none
          | some gs =>
            match BandwidthIncreaseRequests.from_bandwidth_request
                (e.1, bandwidth_request.to_shard) bandwidth_request
                base_bandwidth with
            | none => none
            | some internal_request =>
              some (groupsInsert gs
                (st.get_allowance (e.1, bandwidth_request.to_shard))
                internal_request)) (some groups)) (some [])

/-- The request-count + pending-deltas measure of the group map (each group
contributes 1, each request `1 +` its remaining increases); one loop
iteration strictly decreases it. -/
def reqContrib (r : BandwidthIncreaseRequests) : Nat :=
  1 + r.bandwidth_increases.length

def groupsMeasure (groups : GroupMap) : Nat :=
  (groups.map (fun g => 1 + (g.2.map reqContrib).sum)).sum

/-- Step 1 of `run`: grant every link its per-height allowance share. -/
def replenishAllowances (all_shards : List ShardUId)
    (allowance_per_height : Nat) (st : BandwidthScheduler) :
    BandwidthScheduler :=
  all_shards.foldl (fun acc from_shard =>
    all_shards.foldl (fun acc2 to_shard =>
      acc2.add_allowance (from_shard, to_shard) allowance_per_height) acc) st

/-- Step 3 of `run`: initialize the outgoing and incoming limits from the
previous block's chunks (a missing chunk bans receiving). -/
def initLimits (chunks : List (ShardUId × Option Chunk))
    (st : BandwidthScheduler) : BandwidthScheduler :=
  chunks.foldl (fun acc e =>
    { acc with
      outgoing_limits := mapUpdate acc.outgoing_limits e.1
        MAX_SHARD_BANDWIDTH,
      incoming_limits := mapUpdate acc.incoming_limits e.1
        (if e.2.isSome then MAX_SHARD_BANDWIDTH else 0) }) st

/-- Step 4 of `run`: try to grant the base bandwidth on every ordered pair,
ignoring failures. -/
def grantBase (all_shards : List ShardUId) (base_bandwidth : Nat)
    (st : BandwidthScheduler) : BandwidthScheduler :=
  all_shards.foldl (fun acc from_shard =>
    all_shards.foldl (fun acc2 to_shard =>
      (acc2.try_grant_additional_bandwidth (from_shard, to_shard)
        base_bandwidth).1) acc) st

/-- Step 6 of `run`: apply the residual grants; a failing
`try_grant_additional_bandwidth` is the
`expect("Distributing remaining bandwidth must succeed")` panic (`none`). -/
def applyRemaining (grants : List (ShardLink × Nat))
    (st : BandwidthScheduler) : Option BandwidthScheduler :=
  match grants with
  | [] => some st
  | g :: rest =>
    let res := st.try_grant_additional_bandwidth g.1 g.2
    if res.2 then applyRemaining rest res.1 else none

/-- Steps 1-6 of `BandwidthScheduler::run` on the already-reset state (the
source zeroes `granted_bandwdith` and both limit maps before step 1, so from
here on only the allowance table of the incoming state is read). -/
def runSteps (st0 : BandwidthScheduler) (prev_block : Block)
    (shuffle : Nat → List BandwidthIncreaseRequests →
      List BandwidthIncreaseRequests) :
    Option (List (ShardLink × Nat) × BandwidthScheduler) :=
  let all_shards := prev_block.chunks.map (fun e => e.1)
  let base_bandwidth := BandwidthScheduler.get_base_bandwidth
    all_shards.length
  let allowance_per_height := MAX_SHARD_BANDWIDTH / all_shards.length
  let st1 := replenishAllowances all_shards allowance_per_height st0
  let st2 := initLimits prev_block.chunks st1
  let st3 := grantBase all_shards base_bandwidth st2
  match buildRequests st3 prev_block.chunks base_bandwidth with
  | none => none
  | some groups =>
    match schedLoop shuffle 0 (groupsMeasure groups + 1) groups st3 with
    | none => none
    | some st4 =>
      match distribute_remaining_bandwidth st4.outgoing_limits
          st4.incoming_limits with
      | none => none
      | some remaining_bandwidth_grants =>
        match applyRemaining remaining_bandwidth_grants st4 with
        | none => none
        | some st5 =>
          some (st5.granted_bandwdith,
            { st5 with granted_bandwdith := [] })

/-- The reset at the start of `run`: `granted_bandwdith` and both limit maps
are replaced by fresh empty maps; only `allowances` survives. -/
def resetSched (st : BandwidthScheduler) : BandwidthScheduler :=
  { st with
    granted_bandwdith := [],
    incoming_limits := [],
    outgoing_limits := [] }

/-- `BandwidthScheduler::run`.  The RNG argument is the abstract shuffle
family (see the file header); the returned pair is the granted map
(`std::mem::take(&mut self.granted_bandwdith)`) and the scheduler state after
the call.  `none` collects the panics modelled inside (all shown unreachable
under the stated hypotheses). -/
def BandwidthScheduler.run (st : BandwidthScheduler) (prev_block : Block)
    (shuffle : Nat → List BandwidthIncreaseRequests →
      List BandwidthIncreaseRequests) :
    Option (List (ShardLink × Nat) × BandwidthScheduler) :=
  if (prev_block.chunks.map (fun e => e.1)).isEmpty then some ([], st)
  else
    runSteps (resetSched st) prev_block shuffle

/-- Distinctness of an assoc list's keys. -/
def keysNodup {K V : Type} (m : List (K × V)) : Prop :=
  (m.map (fun e => e.1)).Nodup

/-- The outgoing limit `initLimits` sets up for shard `s`: every shard with
a chunk entry starts at `MAX_SHARD_BANDWIDTH`, others keep no entry (read
as 0). -/
def outInit (chunks : List (ShardUId × Option Chunk)) (s : ShardUId) : Nat :=
  if s ∈ chunks.map (fun e => e.1) then MAX_SHARD_BANDWIDTH else 0

/-- The incoming limit `initLimits` sets up for shard `s`: a present chunk
starts at `MAX_SHARD_BANDWIDTH`, a missing chunk at 0 (receiving is
banned), shards without an entry keep no entry (read as 0). -/
def inInit (chunks : List (ShardUId × Option Chunk)) (s : ShardUId) : Nat :=
  match mapGet chunks s with
  | some (some _) => MAX_SHARD_BANDWIDTH
  | _ => 0

/-- Conservation invariant of steps 3 through 6 of `run`: per shard, the
granted row (resp. column) sum plus the remaining outgoing (resp. incoming)
limit equals the initial limit, and the limit maps have distinct keys. -/
def schedInv (chunks : List (ShardUId × Option Chunk))
    (st : BandwidthScheduler) : Prop :=
  (∀ s, sumFrom st.granted_bandwdith s + mapGetD st.outgoing_limits s 0 =
    outInit chunks s) ∧
  (∀ s, sumTo st.granted_bandwdith s + mapGetD st.incoming_limits s 0 =
    inInit chunks s) ∧
  keysNodup st.outgoing_limits ∧ keysNodup st.incoming_limits

/-- The scheduler state entering step 5 of `run`: reset state after
replenishing allowances, initializing the limits and granting the base
bandwidth. -/
def presetState (st0 : BandwidthScheduler) (pb : Block) :
    BandwidthScheduler :=
  grantBase (pb.chunks.map (fun e => e.1))
    (BandwidthScheduler.get_base_bandwidth
      (pb.chunks.map (fun e => e.1)).length)
    (initLimits pb.chunks
      (replenishAllowances (pb.chunks.map (fun e => e.1))
        (MAX_SHARD_BANDWIDTH / (pb.chunks.map (fun e => e.1)).length) st0))

/-- All values stored in the allowance table are at most `MAX_ALLOWANCE`. -/
def allowancesBounded (st : BandwidthScheduler) : Prop :=
  ∀ e ∈ st.allowances, e.2 ≤ MAX_ALLOWANCE

namespace BandwidthRequestBitmap

theorem get_bit_eq_testBit (b : BandwidthRequestBitmap) (i : Nat) :
    b.get_bit i = Nat.testBit (b.getD (i / 8) 0) (i % 8) := by
  unfold get_bit
  rw [Nat.testBit_to_div_mod, Nat.and_one_is_mod, Nat.shiftRight_eq_div_pow]
  rcases Nat.mod_two_eq_zero_or_one (b.getD (i / 8) 0 / 2 ^ (i % 8)) with h | h <;>
    simp [List.getD_eq_getElem?_getD] at h ⊢ <;> simp [h]

theorem length_set_bit (b : BandwidthRequestBitmap) (i : Nat) (v : Bool) :
    (b.set_bit i v).length = b.length := by
  unfold set_bit
  simp

theorem get_bit_new (j : Nat) (hj : j < 40) :
    BandwidthRequestBitmap.new.get_bit j = false := by
  rw [get_bit_eq_testBit]
  have h : (BandwidthRequestBitmap.new).getD (j / 8) 0 = 0 := by
    unfold new
    rw [List.getD_eq_getElem?_getD, List.getElem?_replicate]
    have h5 : j / 8 < BANDWIDTH_REQUEST_BITMAP_ARRAY_SIZE := by
      unfold BANDWIDTH_REQUEST_BITMAP_ARRAY_SIZE BANDWIDTH_REQUEST_VALUES_NUM
      omega
    simp [h5]
  rw [h]
  simp

theorem getD_set_bit_self (b : BandwidthRequestBitmap)
    (hlen : b.length = BANDWIDTH_REQUEST_BITMAP_ARRAY_SIZE)
    (i : Nat) (hi : i < 40) (v : Bool) :
    (b.set_bit i v).getD (i / 8) 0 =
      (if v then b.getD (i / 8) 0 ||| (1 <<< (i % 8))
       else b.getD (i / 8) 0 &&& (255 ^^^ (1 <<< (i % 8)))) := by
  have hidx : i / 8 < b.length := by
    rw [hlen]
    unfold BANDWIDTH_REQUEST_BITMAP_ARRAY_SIZE BANDWIDTH_REQUEST_VALUES_NUM
    omega
  unfold set_bit
  rw [List.getD_eq_getElem?_getD, List.getElem?_set_self (by simpa using hidx)]
  rfl

theorem get_bit_set_bit_self (b : BandwidthRequestBitmap)
    (hlen : b.length = BANDWIDTH_REQUEST_BITMAP_ARRAY_SIZE)
    (i : Nat) (hi : i < 40) (v : Bool) :
    (b.set_bit i v).get_bit i = v := by
  rw [get_bit_eq_testBit, getD_set_bit_self b hlen i hi v]
  rcases v with _ | _
  · rw [if_neg (by simp)]
    rw [show (255 : Nat) = 2 ^ 8 - 1 by norm_num, Nat.shiftLeft_eq, one_mul]
    simp only [Nat.testBit_land, Nat.testBit_xor, Nat.testBit_two_pow_sub_one,
      Nat.testBit_two_pow_self]
    simp [Nat.mod_lt i (show 0 < 8 by norm_num)]
  · rw [if_pos rfl]
    rw [Nat.shiftLeft_eq, one_mul]
    simp [Nat.testBit_lor, Nat.testBit_two_pow_self]

theorem get_bit_set_bit_other (b : BandwidthRequestBitmap)
    (hlen : b.length = BANDWIDTH_REQUEST_BITMAP_ARRAY_SIZE)
    (i j : Nat) (hi : i < 40) (hj : j < 40) (hne : j ≠ i) (v : Bool) :
    (b.set_bit i v).get_bit j = b.get_bit j := by
  rw [get_bit_eq_testBit, get_bit_eq_testBit]
  by_cases hbyte : j / 8 = i / 8
  · -- same byte, different bit position
    have hbit : j % 8 ≠ i % 8 := by omega
    rw [hbyte, getD_set_bit_self b hlen i hi v]
    rcases v with _ | _
    · rw [if_neg (by simp)]
      rw [show (255 : Nat) = 2 ^ 8 - 1 by norm_num, Nat.shiftLeft_eq, one_mul]
      simp only [Nat.testBit_land, Nat.testBit_xor, Nat.testBit_two_pow_sub_one]
      rw [Nat.testBit_two_pow_of_ne (by omega)]
      simp [Nat.mod_lt j (show 0 < 8 by norm_num)]
    · rw [if_pos rfl]
      rw [Nat.shiftLeft_eq, one_mul]
      simp only [Nat.testBit_lor]
      rw [Nat.testBit_two_pow_of_ne (by omega)]
      simp
  · -- different byte: the set leaves it unchanged
    unfold set_bit
    simp only [List.getD_eq_getElem?_getD]
    rw [List.getElem?_set_ne (by omega)]

end BandwidthRequestBitmap

/-- C9: the 40-bit bitmap behaves like an array of 40 booleans, initially all
false: on any length-5 byte state (every reachable state has 5 bytes: `new`
does and `set_bit` preserves length), after `set_bit i v`, `get_bit i`
returns `v` and `get_bit j` for `j ≠ i` is unchanged. -/
theorem bitmap_set_get_spec (b : BandwidthRequestBitmap)
    (hlen : b.length = BANDWIDTH_REQUEST_BITMAP_ARRAY_SIZE)
    (i j : Nat) (hi : i < 40) (hj : j < 40) (hne : j ≠ i) (v : Bool) :
    (b.set_bit i v).get_bit i = v ∧
    (b.set_bit i v).get_bit j = b.get_bit j ∧
    BandwidthRequestBitmap.new.get_bit j = false := by
  exact ⟨BandwidthRequestBitmap.get_bit_set_bit_self b hlen i hi v,
    BandwidthRequestBitmap.get_bit_set_bit_other b hlen i j hi hj hne v,
    BandwidthRequestBitmap.get_bit_new j hj⟩

/-- Witness for C9 at a concrete state: the fresh bitmap, `i = 3`, `j = 11`,
`v = true`. -/
theorem bitmap_set_get_spec_witness :
    (BandwidthRequestBitmap.new.set_bit 3 true).get_bit 3 = true ∧
    (BandwidthRequestBitmap.new.set_bit 3 true).get_bit 11 =
      BandwidthRequestBitmap.new.get_bit 11 ∧
    BandwidthRequestBitmap.new.get_bit 11 = false :=
  bitmap_set_get_spec BandwidthRequestBitmap.new (by decide) 3 11
    (by decide) (by decide) (by decide) true

namespace BandwidthRequestValues

theorem values_sorted_iff_chain (l : List Nat) :
    values_sorted l = true ↔ l.Chain' (· < ·) := by
  induction l with
  | nil => simp [values_sorted]
  | cons a rest ih =>
    cases rest with
    | nil => simp [values_sorted]
    | cons b rest2 =>
      rw [values_sorted]
      simp only [Bool.and_eq_true, decide_eq_true_eq, List.chain'_cons]
      exact and_congr Iff.rfl ih

theorem closestToMax_mem_or_zero (l : List Nat) :
    closestToMax l = 0 ∨ closestToMax l ∈ l := by
  unfold closestToMax
  suffices h : ∀ (init : Nat),
      l.foldl (fun c v => if Nat.dist v MAX_RECEIPT_SIZE < Nat.dist c MAX_RECEIPT_SIZE
        then v else c) init = init ∨
      l.foldl (fun c v => if Nat.dist v MAX_RECEIPT_SIZE < Nat.dist c MAX_RECEIPT_SIZE
        then v else c) init ∈ l by
    exact h 0
  induction l with
  | nil => intro init; left; rfl
  | cons a rest ih =>
    intro init
    rw [List.foldl_cons]
    rcases ih (if Nat.dist a MAX_RECEIPT_SIZE < Nat.dist init MAX_RECEIPT_SIZE
        then a else init) with h | h
    · rw [h]
      by_cases hc : Nat.dist a MAX_RECEIPT_SIZE < Nat.dist init MAX_RECEIPT_SIZE
      · right; rw [if_pos hc]; exact List.mem_cons_self a rest
      · left; rw [if_neg hc]
    · right; exact List.mem_cons_of_mem a h

theorem closestToMax_min (l : List Nat) :
    (∀ v ∈ l, Nat.dist (closestToMax l) MAX_RECEIPT_SIZE ≤ Nat.dist v MAX_RECEIPT_SIZE)
    ∧ Nat.dist (closestToMax l) MAX_RECEIPT_SIZE ≤ Nat.dist 0 MAX_RECEIPT_SIZE := by
  unfold closestToMax
  suffices h : ∀ (init : Nat),
      (∀ v ∈ l, Nat.dist (l.foldl (fun c v => if Nat.dist v MAX_RECEIPT_SIZE <
          Nat.dist c MAX_RECEIPT_SIZE then v else c) init) MAX_RECEIPT_SIZE ≤
        Nat.dist v MAX_RECEIPT_SIZE)
      ∧ Nat.dist (l.foldl (fun c v => if Nat.dist v MAX_RECEIPT_SIZE <
          Nat.dist c MAX_RECEIPT_SIZE then v else c) init) MAX_RECEIPT_SIZE ≤
        Nat.dist init MAX_RECEIPT_SIZE by
    exact h 0
  induction l with
  | nil =>
    intro init
    refine ⟨fun v hv => absurd hv (List.not_mem_nil v), le_refl _⟩
  | cons a rest ih =>
    intro init
    rw [List.foldl_cons]
    obtain ⟨hall, hinit⟩ := ih (if Nat.dist a MAX_RECEIPT_SIZE <
      Nat.dist init MAX_RECEIPT_SIZE then a else init)
    have hstep_init : Nat.dist (if Nat.dist a MAX_RECEIPT_SIZE <
        Nat.dist init MAX_RECEIPT_SIZE then a else init) MAX_RECEIPT_SIZE ≤
        Nat.dist init MAX_RECEIPT_SIZE := by
      by_cases hc : Nat.dist a MAX_RECEIPT_SIZE < Nat.dist init MAX_RECEIPT_SIZE
      · rw [if_pos hc]; exact le_of_lt hc
      · rw [if_neg hc]
    have hstep_a : Nat.dist (if Nat.dist a MAX_RECEIPT_SIZE <
        Nat.dist init MAX_RECEIPT_SIZE then a else init) MAX_RECEIPT_SIZE ≤
        Nat.dist a MAX_RECEIPT_SIZE := by
      by_cases hc : Nat.dist a MAX_RECEIPT_SIZE < Nat.dist init MAX_RECEIPT_SIZE
      · rw [if_pos hc]
      · rw [if_neg hc]; omega
    refine ⟨?_, hinit.trans hstep_init⟩
    intro v hv
    rcases List.mem_cons.mp hv with rfl | hv2
    · exact hinit.trans hstep_a
    · exact hall v hv2

end BandwidthRequestValues

namespace BandwidthRequestValues

theorem rawVal_step (B i : Nat) :
    rawVal B MAX_SHARD_BANDWIDTH i + (MAX_SHARD_BANDWIDTH - B) / 40 ≤
      rawVal B MAX_SHARD_BANDWIDTH (i + 1) ∧
    rawVal B MAX_SHARD_BANDWIDTH (i + 1) ≤
      rawVal B MAX_SHARD_BANDWIDTH i + (MAX_SHARD_BANDWIDTH - B) / 40 + 1 := by
  unfold rawVal BANDWIDTH_REQUEST_VALUES_NUM
  have h : (MAX_SHARD_BANDWIDTH - B) * (i + 1 + 1) =
      (MAX_SHARD_BANDWIDTH - B) * (i + 1) + (MAX_SHARD_BANDWIDTH - B) := by ring
  rw [h]
  omega

theorem div40_bounds (B : Nat) (hB : B ≤ 500000) :
    100000 ≤ (MAX_SHARD_BANDWIDTH - B) / 40 ∧
    (MAX_SHARD_BANDWIDTH - B) / 40 ≤ 112500 := by
  unfold MAX_SHARD_BANDWIDTH
  omega

theorem rawVal_last (B : Nat) (hB : B ≤ 500000) :
    rawVal B MAX_SHARD_BANDWIDTH 39 = MAX_SHARD_BANDWIDTH := by
  unfold rawVal BANDWIDTH_REQUEST_VALUES_NUM
  rw [show (39 + 1 : Nat) = 40 from rfl,
    Nat.mul_div_cancel _ (show (0 : Nat) < 40 by norm_num)]
  unfold MAX_SHARD_BANDWIDTH
  omega

theorem rawVal_gt_base (B i : Nat) (hB : B ≤ 500000) :
    B < rawVal B MAX_SHARD_BANDWIDTH i := by
  unfold rawVal BANDWIDTH_REQUEST_VALUES_NUM MAX_SHARD_BANDWIDTH
  have h1 : 4500000 - B ≤ (4500000 - B) * (i + 1) :=
    Nat.le_mul_of_pos_right _ (Nat.succ_pos i)
  have h2 : (4500000 - B) / 40 ≤ (4500000 - B) * (i + 1) / 40 :=
    Nat.div_le_div_right h1
  omega

theorem rawVal_zero_le (B : Nat) (hB : B ≤ 500000) :
    rawVal B MAX_SHARD_BANDWIDTH 0 ≤ 612500 := by
  unfold rawVal BANDWIDTH_REQUEST_VALUES_NUM
  rw [show (0 + 1 : Nat) = 1 from rfl, Nat.mul_one]
  unfold MAX_SHARD_BANDWIDTH
  omega

theorem rawVal_mem_raw (B M i : Nat) (hi : i < 40) :
    rawVal B M i ∈ raw B M := by
  unfold raw
  exact List.mem_map_of_mem _ (by
    rw [List.mem_range]
    unfold BANDWIDTH_REQUEST_VALUES_NUM
    omega)

/-- Some ladder entry is within `100000` of `MAX_RECEIPT_SIZE`: the ladder
starts below it, ends above it, and its steps are at most `112501`. -/
theorem distEq (a b : Nat) : Nat.dist a b = (a - b) + (b - a) := rfl

theorem exists_near (B : Nat) (hB : B ≤ 500000) :
    ∃ v ∈ raw B MAX_SHARD_BANDWIDTH,
      Nat.dist v MAX_RECEIPT_SIZE < 100000 := by
  classical
  have hP0 : rawVal B MAX_SHARD_BANDWIDTH 0 ≤ MAX_RECEIPT_SIZE := by
    have := rawVal_zero_le B hB
    unfold MAX_RECEIPT_SIZE
    omega
  set j := Nat.findGreatest
    (fun i => rawVal B MAX_SHARD_BANDWIDTH i ≤ MAX_RECEIPT_SIZE) 38 with hjdef
  have hPj : rawVal B MAX_SHARD_BANDWIDTH j ≤ MAX_RECEIPT_SIZE :=
    Nat.findGreatest_spec
      (P := fun i => rawVal B MAX_SHARD_BANDWIDTH i ≤ MAX_RECEIPT_SIZE)
      (Nat.zero_le 38) hP0
  have hjle : j ≤ 38 := Nat.findGreatest_le 38
  have hnot : ¬ rawVal B MAX_SHARD_BANDWIDTH (j + 1) ≤ MAX_RECEIPT_SIZE := by
    by_cases hcase : j < 38
    · exact Nat.findGreatest_is_greatest
        (P := fun i => rawVal B MAX_SHARD_BANDWIDTH i ≤ MAX_RECEIPT_SIZE)
        (n := 38) (k := j + 1) (by rw [← hjdef]; omega) (by omega)
    · have hj38 : j = 38 := by omega
      rw [hj38]
      rw [show (38 + 1 : Nat) = 39 from rfl, rawVal_last B hB]
      unfold MAX_SHARD_BANDWIDTH MAX_RECEIPT_SIZE
      omega
  have hstep := (rawVal_step B j).2
  have hd40 := div40_bounds B hB
  by_cases hnear : MAX_RECEIPT_SIZE - rawVal B MAX_SHARD_BANDWIDTH j < 100000
  · refine ⟨rawVal B MAX_SHARD_BANDWIDTH j, rawVal_mem_raw B _ j (by omega), ?_⟩
    rw [distEq]
    omega
  · refine ⟨rawVal B MAX_SHARD_BANDWIDTH (j + 1),
      rawVal_mem_raw B _ (j + 1) (by omega), ?_⟩
    rw [distEq]
    omega

theorem closest_mem_near (B : Nat) (hB : B ≤ 500000) :
    closestToMax (raw B MAX_SHARD_BANDWIDTH) ∈ raw B MAX_SHARD_BANDWIDTH ∧
    Nat.dist (closestToMax (raw B MAX_SHARD_BANDWIDTH)) MAX_RECEIPT_SIZE
      < 100000 := by
  obtain ⟨v, hv, hvd⟩ := exists_near B hB
  have hmin := (closestToMax_min (raw B MAX_SHARD_BANDWIDTH)).1 v hv
  have hnear : Nat.dist (closestToMax (raw B MAX_SHARD_BANDWIDTH))
      MAX_RECEIPT_SIZE < 100000 := lt_of_le_of_lt hmin hvd
  refine ⟨?_, hnear⟩
  rcases closestToMax_mem_or_zero (raw B MAX_SHARD_BANDWIDTH) with h0 | hmem
  · exfalso
    rw [h0, distEq] at hnear
    unfold MAX_RECEIPT_SIZE at hnear
    omega
  · exact hmem

theorem replaced_chain (B : Nat) (hB : B ≤ 500000) :
    (replaced B MAX_SHARD_BANDWIDTH).Chain' (· < ·) := by
  have hnear := (closest_mem_near B hB).2
  rw [distEq] at hnear
  have hraw : raw B MAX_SHARD_BANDWIDTH =
      (List.range (Nat.succ 39)).map (rawVal B MAX_SHARD_BANDWIDTH) := rfl
  rw [hraw] at hnear
  unfold replaced
  rw [List.chain'_map]
  unfold raw
  rw [List.chain'_map]
  rw [show BANDWIDTH_REQUEST_VALUES_NUM = Nat.succ 39 from rfl,
    List.chain'_range_succ]
  intro m hm
  have hstep := (rawVal_step B m).1
  have hd40 := div40_bounds B hB
  set cl := closestToMax
    ((List.range (Nat.succ 39)).map (rawVal B MAX_SHARD_BANDWIDTH)) with hcl
  show (if rawVal B MAX_SHARD_BANDWIDTH m = cl then MAX_RECEIPT_SIZE
      else rawVal B MAX_SHARD_BANDWIDTH m) <
    (if rawVal B MAX_SHARD_BANDWIDTH (m + 1) = cl then MAX_RECEIPT_SIZE
      else rawVal B MAX_SHARD_BANDWIDTH (m + 1))
  unfold MAX_RECEIPT_SIZE at hnear ⊢
  split_ifs with h1 h2 h2 <;> omega

theorem new_eq (B : Nat) (hB : B ≤ 500000) :
    new B MAX_SHARD_BANDWIDTH = some (replaced B MAX_SHARD_BANDWIDTH) := by
  unfold new
  rw [if_pos rfl,
    if_pos ((values_sorted_iff_chain _).mpr (replaced_chain B hB))]

theorem replaced_length (B M : Nat) : (replaced B M).length = 40 := by
  simp [replaced, raw, BANDWIDTH_REQUEST_VALUES_NUM]

theorem replaced_getD_39 (B : Nat) (hB : B ≤ 500000) :
    (replaced B MAX_SHARD_BANDWIDTH).getD 39 0 = MAX_SHARD_BANDWIDTH := by
  have hnear := (closest_mem_near B hB).2
  unfold replaced raw
  rw [List.getD_eq_getElem?_getD, List.getElem?_map, List.getElem?_map,
    List.getElem?_range (by unfold BANDWIDTH_REQUEST_VALUES_NUM; omega)]
  simp only [Option.map_some', Option.getD_some]
  rw [rawVal_last B hB]
  rw [if_neg]
  intro hEq
  unfold raw at hnear
  rw [← hEq, distEq] at hnear
  unfold MAX_RECEIPT_SIZE MAX_SHARD_BANDWIDTH at hnear
  omega

theorem mem_replaced_max_receipt (B : Nat) (hB : B ≤ 500000) :
    MAX_RECEIPT_SIZE ∈ replaced B MAX_SHARD_BANDWIDTH := by
  have hmem := (closest_mem_near B hB).1
  unfold replaced
  refine List.mem_map.mpr ⟨closestToMax (raw B MAX_SHARD_BANDWIDTH), hmem, ?_⟩
  rw [if_pos rfl]

theorem replaced_all_gt_base (B : Nat) (hB : B ≤ 500000) :
    ∀ v ∈ replaced B MAX_SHARD_BANDWIDTH, B < v := by
  intro v hv
  unfold replaced at hv
  obtain ⟨u, hu, hfu⟩ := List.mem_map.mp hv
  obtain ⟨i, hi, hui⟩ := List.mem_map.mp hu
  rw [List.mem_range] at hi
  subst hfu
  split_ifs with h
  · unfold MAX_RECEIPT_SIZE
    omega
  · rw [← hui]
    exact rawVal_gt_base B i hB

end BandwidthRequestValues

/-- C5: for every `base_bandwidth ≤ MAX_SHARD_BANDWIDTH - MAX_RECEIPT_SIZE`,
`BandwidthRequestValues::new(base_bandwidth, MAX_SHARD_BANDWIDTH)` succeeds
(no "Values not sorted" panic, modelled as returning `some`), yielding a
length-40 strictly increasing ladder whose last entry is
`MAX_SHARD_BANDWIDTH` and which contains `MAX_RECEIPT_SIZE`. -/
theorem bandwidth_request_values_spec (base_bandwidth : Nat)
    (hB : base_bandwidth ≤ MAX_SHARD_BANDWIDTH - MAX_RECEIPT_SIZE) :
    ∃ V, BandwidthRequestValues.new base_bandwidth MAX_SHARD_BANDWIDTH = some V ∧
      V.length = 40 ∧ V.Chain' (· < ·) ∧
      V.getD 39 0 = MAX_SHARD_BANDWIDTH ∧ MAX_RECEIPT_SIZE ∈ V := by
  have hB5 : base_bandwidth ≤ 500000 := by
    unfold MAX_SHARD_BANDWIDTH MAX_RECEIPT_SIZE at hB
    omega
  exact ⟨BandwidthRequestValues.replaced base_bandwidth MAX_SHARD_BANDWIDTH,
    BandwidthRequestValues.new_eq base_bandwidth hB5,
    BandwidthRequestValues.replaced_length _ _,
    BandwidthRequestValues.replaced_chain base_bandwidth hB5,
    BandwidthRequestValues.replaced_getD_39 base_bandwidth hB5,
    BandwidthRequestValues.mem_replaced_max_receipt base_bandwidth hB5⟩

/-- Witness for C5 at `base_bandwidth = 0`. -/
theorem bandwidth_request_values_spec_witness :
    (0 : Nat) ≤ MAX_SHARD_BANDWIDTH - MAX_RECEIPT_SIZE ∧
    ∃ V, BandwidthRequestValues.new 0 MAX_SHARD_BANDWIDTH = some V ∧
      V.length = 40 ∧ V.Chain' (· < ·) ∧
      V.getD 39 0 = MAX_SHARD_BANDWIDTH ∧ MAX_RECEIPT_SIZE ∈ V :=
  ⟨Nat.zero_le _, bandwidth_request_values_spec 0 (Nat.zero_le _)⟩

theorem fromSizesLoop_no_set (values : List Nat) (base : Nat)
    (sizes : List Nat) : ∀ (total cur : Nat) (bm : BandwidthRequestBitmap),
    total + sizes.sum ≤ base →
    fromSizesLoop values base sizes total cur bm = bm := by
  induction sizes with
  | nil => intro total cur bm _; rfl
  | cons sz rest ih =>
    intro total cur bm h
    rw [List.sum_cons] at h
    unfold fromSizesLoop
    rw [if_pos (by omega)]
    exact ih (total + sz) cur bm (by omega)

theorem get_bit_true_not_all_false (bm : BandwidthRequestBitmap) (i : Nat)
    (h : bm.get_bit i = true) : bm.is_all_false = false := by
  rcases hall : bm.is_all_false with _ | _
  · rfl
  · exfalso
    unfold BandwidthRequestBitmap.is_all_false at hall
    rw [List.all_eq_true] at hall
    have hz : bm.getD (i / 8) 0 = 0 := by
      rw [List.getD_eq_getElem?_getD]
      rcases hx : bm[i / 8]? with _ | x
      · rfl
      · have hmem := List.getElem?_mem hx
        have := hall x hmem
        simpa using this
    rw [BandwidthRequestBitmap.get_bit_eq_testBit, hz] at h
    simp at h

theorem set_bit_true_not_all_false (bm : BandwidthRequestBitmap)
    (hlen : bm.length = BANDWIDTH_REQUEST_BITMAP_ARRAY_SIZE)
    (i : Nat) (hi : i < 40) :
    (bm.set_bit i true).is_all_false = false :=
  get_bit_true_not_all_false _ i
    (BandwidthRequestBitmap.get_bit_set_bit_self bm hlen i hi true)

theorem advanceWhile_le_length (vals : List Nat) (t : Nat) :
    advanceWhile vals t ≤ vals.length := by
  induction vals with
  | nil => simp [advanceWhile]
  | cons v rest ih =>
    unfold advanceWhile
    by_cases h : v < t
    · rw [if_pos h]; simpa using ih
    · rw [if_neg h]; simp

theorem fromSizesLoop_result_not_empty (values : List Nat) (base : Nat)
    (hv : values.length = 40) (sizes : List Nat) :
    ∀ (total cur : Nat) (bm : BandwidthRequestBitmap),
    cur ≤ values.length →
    bm.length = BANDWIDTH_REQUEST_BITMAP_ARRAY_SIZE →
    base < total + sizes.sum →
    (total ≤ base ∨ bm.is_all_false = false) →
    (fromSizesLoop values base sizes total cur bm).is_all_false = false := by
  induction sizes with
  | nil =>
    intro total cur bm _ _ hover hinv
    rw [List.sum_nil, Nat.add_zero] at hover
    rcases hinv with h | h
    · omega
    · exact h
  | cons sz rest ih =>
    intro total cur bm hcur hbmlen hover hinv
    rw [List.sum_cons] at hover
    unfold fromSizesLoop
    by_cases hle : total + sz ≤ base
    · rw [if_pos hle]
      exact ih (total + sz) cur bm hcur hbmlen (by omega) (Or.inl hle)
    · rw [if_neg hle]
      have hcur2 : cur + advanceWhile (values.drop cur) (total + sz) ≤
          values.length := by
        have := advanceWhile_le_length (values.drop cur) (total + sz)
        rw [List.length_drop] at this
        omega
      by_cases hend : cur + advanceWhile (values.drop cur) (total + sz) =
          values.length
      · rw [if_pos hend]
        exact set_bit_true_not_all_false bm hbmlen _ (by
          unfold BandwidthRequestBitmap.len BANDWIDTH_REQUEST_VALUES_NUM
          omega)
      · rw [if_neg hend]
        refine ih (total + sz) _ _ hcur2 ?_ (by omega) (Or.inr ?_)
        · rw [BandwidthRequestBitmap.length_set_bit]
          exact hbmlen
        · exact set_bit_true_not_all_false bm hbmlen _ (by omega)

theorem new_is_all_false : BandwidthRequestBitmap.new.is_all_false = true := by
  decide

/-- C6: `BandwidthRequest::from_receipt_sizes(to, sizes, base,
MAX_SHARD_BANDWIDTH)` returns `Some(request)` iff the sum of the receipt
sizes exceeds `base_bandwidth`, and `None` otherwise (in particular for an
empty size list).  The hypothesis keeps the configuration legal
(`BandwidthRequestValues::new` does not panic, cf. C5). -/
theorem from_receipt_sizes_some_iff (to_shard : Nat)
    (receipt_sizes : List Nat) (base_bandwidth : Nat)
    (hB : base_bandwidth ≤ MAX_SHARD_BANDWIDTH - MAX_RECEIPT_SIZE) :
    ∃ res, BandwidthRequest.from_receipt_sizes to_shard receipt_sizes
        base_bandwidth MAX_SHARD_BANDWIDTH = some res ∧
      (res.isSome ↔ base_bandwidth < receipt_sizes.sum) := by
  have hB5 : base_bandwidth ≤ 500000 := by
    unfold MAX_SHARD_BANDWIDTH MAX_RECEIPT_SIZE at hB
    omega
  have hreduce : BandwidthRequest.from_receipt_sizes to_shard receipt_sizes
      base_bandwidth MAX_SHARD_BANDWIDTH =
      some (if (fromSizesLoop
          (BandwidthRequestValues.replaced base_bandwidth MAX_SHARD_BANDWIDTH)
          base_bandwidth receipt_sizes 0 0
          BandwidthRequestBitmap.new).is_all_false then none
        else some (BandwidthRequest.mk to_shard (fromSizesLoop
          (BandwidthRequestValues.replaced base_bandwidth MAX_SHARD_BANDWIDTH)
          base_bandwidth receipt_sizes 0 0 BandwidthRequestBitmap.new))) := by
    unfold BandwidthRequest.from_receipt_sizes
    rw [BandwidthRequestValues.new_eq base_bandwidth hB5]
  rw [hreduce]
  by_cases hsum : base_bandwidth < receipt_sizes.sum
  · have hne := fromSizesLoop_result_not_empty
      (BandwidthRequestValues.replaced base_bandwidth MAX_SHARD_BANDWIDTH)
      base_bandwidth (BandwidthRequestValues.replaced_length _ _)
      receipt_sizes 0 0 BandwidthRequestBitmap.new (Nat.zero_le _)
      (by decide) (by omega) (Or.inl (Nat.zero_le _))
    rw [hne]
    exact ⟨_, rfl, by simpa using hsum⟩
  · have hbm := fromSizesLoop_no_set
      (BandwidthRequestValues.replaced base_bandwidth MAX_SHARD_BANDWIDTH)
      base_bandwidth receipt_sizes 0 0 BandwidthRequestBitmap.new (by omega)
    rw [hbm, new_is_all_false]
    exact ⟨none, rfl, by simpa using hsum⟩

/-- Witness for C6 at `to = 1`, `sizes = [200, 400]`, `base = 500`
(sum `600 > 500`, so a request is emitted). -/
theorem from_receipt_sizes_some_iff_witness :
    (500 : Nat) ≤ MAX_SHARD_BANDWIDTH - MAX_RECEIPT_SIZE ∧
    ∃ res, BandwidthRequest.from_receipt_sizes 1 [200, 400]
        500 MAX_SHARD_BANDWIDTH = some res ∧
      (res.isSome ↔ 500 < ([200, 400] : List Nat).sum) :=
  ⟨by decide, from_receipt_sizes_some_iff 1 [200, 400] 500 (by decide)⟩

theorem getD_mem_of_lt (l : List Nat) (i : Nat) (h : i < l.length) :
    l.getD i 0 ∈ l := by
  rw [List.getD_eq_getElem?_getD, List.getElem?_eq_getElem h]
  exact List.getElem_mem h

theorem pairwise_getD_lt (l : List Nat) (h : l.Pairwise (· < ·)) (i j : Nat)
    (hj : j < l.length) (hij : i < j) : l.getD i 0 < l.getD j 0 := by
  have hi : i < l.length := by omega
  rw [List.pairwise_iff_getElem] at h
  rw [List.getD_eq_getElem?_getD, List.getD_eq_getElem?_getD,
    List.getElem?_eq_getElem hi, List.getElem?_eq_getElem hj]
  simpa using h i j hi hj hij

/-- The decoded options of ANY bitmap, for a legal base bandwidth, form a
strictly increasing sequence of values all above the base bandwidth. -/
theorem from_bitmap_spec (bitmap : BandwidthRequestBitmap)
    (base_bandwidth : Nat) (hB5 : base_bandwidth ≤ 500000) :
    ∃ opts, BandwidthRequestOptions.from_bitmap bitmap base_bandwidth
        MAX_SHARD_BANDWIDTH = some opts ∧
      opts.Pairwise (· < ·) ∧ ∀ v ∈ opts, base_bandwidth < v := by
  have hreduce : BandwidthRequestOptions.from_bitmap bitmap base_bandwidth
      MAX_SHARD_BANDWIDTH =
      some (((List.range bitmap.len).filter (fun i => bitmap.get_bit i)).map
        (fun i => (BandwidthRequestValues.replaced base_bandwidth
          MAX_SHARD_BANDWIDTH).getD i 0)) := by
    unfold BandwidthRequestOptions.from_bitmap
    rw [BandwidthRequestValues.new_eq base_bandwidth hB5]
  rw [hreduce]
  have hchain := BandwidthRequestValues.replaced_chain base_bandwidth hB5
  have hpw : (BandwidthRequestValues.replaced base_bandwidth
      MAX_SHARD_BANDWIDTH).Pairwise (· < ·) :=
    List.chain'_iff_pairwise.mp hchain
  have hlen := BandwidthRequestValues.replaced_length base_bandwidth
    MAX_SHARD_BANDWIDTH
  refine ⟨_, rfl, ?_, ?_⟩
  · rw [List.pairwise_map]
    have hfilter : ((List.range bitmap.len).filter
        (fun i => bitmap.get_bit i)).Pairwise (· < ·) :=
      List.Pairwise.filter _ (List.pairwise_lt_range _)
    refine hfilter.imp_of_mem ?_
    intro a b ha hb hab
    have hbmem : b < 40 := by
      have := List.mem_range.mp (List.mem_of_mem_filter hb)
      unfold BandwidthRequestBitmap.len BANDWIDTH_REQUEST_VALUES_NUM at this
      omega
    exact pairwise_getD_lt _ hpw a b (by omega) hab
  · intro v hv
    obtain ⟨i, hi, hvi⟩ := List.mem_map.mp hv
    have himem : i < 40 := by
      have := List.mem_range.mp (List.mem_of_mem_filter hi)
      unfold BandwidthRequestBitmap.len BANDWIDTH_REQUEST_VALUES_NUM at this
      omega
    rw [← hvi]
    exact BandwidthRequestValues.replaced_all_gt_base base_bandwidth hB5 _
      (getD_mem_of_lt _ i (by omega))

theorem increasesLoop_spec : ∀ (grant_options : List Nat) (last_option : Nat),
    grant_options.Pairwise (· < ·) →
    (∀ v ∈ grant_options, last_option < v) →
    ∃ l, increasesLoop last_option grant_options = some l ∧
      ∀ d ∈ l, 0 < d := by
  intro opts
  induction opts with
  | nil =>
    intro last _ _
    exact ⟨[], rfl, fun d hd => absurd hd (List.not_mem_nil d)⟩
  | cons o rest ih =>
    intro last hpw hall
    have ho : last < o := hall o (List.mem_cons_self o rest)
    rw [List.pairwise_cons] at hpw
    obtain ⟨l, hl, hpos⟩ := ih o hpw.2 hpw.1
    refine ⟨(o - last) :: l, ?_, ?_⟩
    · unfold increasesLoop
      rw [if_neg (by omega), hl]
    · intro d hd
      rcases List.mem_cons.mp hd with rfl | hd2
      · omega
      · exact hpos d hd2

/-- C7: if `from_receipt_sizes` (with a legal base bandwidth) emits a
request, decoding its bitmap with `BandwidthRequestOptions::from_bitmap`
yields a strictly increasing sequence of absolute grant values, each strictly
above the base bandwidth; consequently
`BandwidthIncreaseRequests::from_bandwidth_request` succeeds on it (its
`assert!(bandwidth_option > last_option)` holds) with all deltas strictly
positive. -/
theorem request_options_strictly_increasing (to_shard : Nat)
    (receipt_sizes : List Nat) (base_bandwidth : Nat) (req : BandwidthRequest)
    (hB : base_bandwidth ≤ MAX_SHARD_BANDWIDTH - MAX_RECEIPT_SIZE)
    (hreq : BandwidthRequest.from_receipt_sizes to_shard receipt_sizes
      base_bandwidth MAX_SHARD_BANDWIDTH = some (some req)) :
    ∃ opts, BandwidthRequestOptions.from_bitmap req.grant_options_bitmap
        base_bandwidth MAX_SHARD_BANDWIDTH = some opts ∧
      opts.Pairwise (· < ·) ∧ (∀ v ∈ opts, base_bandwidth < v) ∧
      ∀ s : ShardUId, ∃ ir, BandwidthIncreaseRequests.from_bandwidth_request
          (s, req.to_shard) req base_bandwidth = some ir ∧
        ∀ d ∈ ir.bandwidth_increases, 0 < d := by
  have hB5 : base_bandwidth ≤ 500000 := by
    unfold MAX_SHARD_BANDWIDTH MAX_RECEIPT_SIZE at hB
    omega
  obtain ⟨opts, hopts, hpw, hgt⟩ :=
    from_bitmap_spec req.grant_options_bitmap base_bandwidth hB5
  refine ⟨opts, hopts, hpw, hgt, ?_⟩
  intro s
  obtain ⟨l, hl, hpos⟩ := increasesLoop_spec opts base_bandwidth hpw hgt
  refine ⟨BandwidthIncreaseRequests.mk (s, req.to_shard) l, ?_, hpos⟩
  unfold BandwidthIncreaseRequests.from_bandwidth_request
  rw [if_pos rfl, hopts]
  show (match increasesLoop base_bandwidth opts with
    | none => none
    | some bandwidth_increases =>
      some (BandwidthIncreaseRequests.mk (s, req.to_shard)
        bandwidth_increases)) =
    some (BandwidthIncreaseRequests.mk (s, req.to_shard) l)
  rw [hl]

set_option maxRecDepth 100000 in
/-- Witness for C7: `sizes = [200, 400]`, `base = 500` produce the request
with only bit 0 set (byte array `[1,0,0,0,0]`). -/
theorem request_options_strictly_increasing_witness :
    (500 : Nat) ≤ MAX_SHARD_BANDWIDTH - MAX_RECEIPT_SIZE ∧
    BandwidthRequest.from_receipt_sizes 1 [200, 400] 500 MAX_SHARD_BANDWIDTH =
      some (some (BandwidthRequest.mk 1 [1, 0, 0, 0, 0])) ∧
    ∃ opts, BandwidthRequestOptions.from_bitmap
        (BandwidthRequest.mk 1 [1, 0, 0, 0, 0]).grant_options_bitmap
        500 MAX_SHARD_BANDWIDTH = some opts ∧
      opts.Pairwise (· < ·) ∧ (∀ v ∈ opts, 500 < v) ∧
      ∀ s : ShardUId, ∃ ir, BandwidthIncreaseRequests.from_bandwidth_request
          (s, (BandwidthRequest.mk 1 [1, 0, 0, 0, 0]).to_shard)
          (BandwidthRequest.mk 1 [1, 0, 0, 0, 0]) 500 = some ir ∧
        ∀ d ∈ ir.bandwidth_increases, 0 < d :=
  ⟨by decide, by decide,
    request_options_strictly_increasing 1 [200, 400] 500
      (BandwidthRequest.mk 1 [1, 0, 0, 0, 0]) (by decide) (by decide)⟩

theorem innerRow_cons (ln lb rb rs : Nat) (rest : List (Nat × ShardUId)) :
    innerRow ln lb ((rb, rs) :: rest) =
      ((innerRow ln (lb - stepGrant ln (rest.length + 1) lb rb) rest).1,
       (rb - stepGrant ln (rest.length + 1) lb rb, rs) ::
         (innerRow ln (lb - stepGrant ln (rest.length + 1) lb rb) rest).2.1,
       (rs, stepGrant ln (rest.length + 1) lb rb) ::
         (innerRow ln (lb - stepGrant ln (rest.length + 1) lb rb) rest).2.2) :=
  rfl

theorem left_max_le (lb rn : Nat) (h : 1 ≤ rn) : lb / rn + lb % rn ≤ lb := by
  have h1 := Nat.div_add_mod lb rn
  have h2 : lb / rn ≤ rn * (lb / rn) := Nat.le_mul_of_pos_left _ (by omega)
  omega

theorem right_max_le (rb ln : Nat) : rb / ln + rb % ln ≤ rb := by
  rcases Nat.eq_zero_or_pos ln with h | h
  · subst h
    simp
  · have h1 := Nat.div_add_mod rb ln
    have h2 : rb / ln ≤ ln * (rb / ln) := Nat.le_mul_of_pos_left _ h
    omega

theorem stepGrant_le_lb (ln rn lb rb : Nat) (h : 1 ≤ rn) :
    stepGrant ln rn lb rb ≤ lb := by
  have := left_max_le lb rn h
  unfold stepGrant
  omega

theorem stepGrant_le_rb (ln rn lb rb : Nat) : stepGrant ln rn lb rb ≤ rb := by
  have := right_max_le rb ln
  unfold stepGrant
  omega

theorem innerRow_sum (rights : List (Nat × ShardUId)) : ∀ (ln lb : Nat),
    ((innerRow ln lb rights).2.2.map (fun e => e.2)).sum +
      (innerRow ln lb rights).1 = lb := by
  induction rights with
  | nil => intro ln lb; simp [innerRow]
  | cons p rest ih =>
    intro ln lb
    rcases p with ⟨rb, rs⟩
    rw [innerRow_cons]
    simp only [List.map_cons, List.sum_cons]
    have hg := stepGrant_le_lb ln (rest.length + 1) lb rb (by omega)
    have hih := ih ln (lb - stepGrant ln (rest.length + 1) lb rb)
    omega

theorem lookupSum_cons (s v : Nat) (l : List (ShardUId × Nat))
    (r : ShardUId) :
    lookupSum ((s, v) :: l) r = (if s = r then v else 0) + lookupSum l r := by
  unfold lookupSum
  rw [List.filter_cons]
  by_cases h : s = r
  · subst h
    simp
  · simp [h]

theorem colVal_cons (v s : Nat) (l : List (Nat × ShardUId)) (r : ShardUId) :
    colVal ((v, s) :: l) r = (if s = r then v else 0) + colVal l r := by
  unfold colVal
  rw [List.filter_cons]
  by_cases h : s = r
  · subst h
    simp
  · simp [h]

theorem innerRow_colVal (rights : List (Nat × ShardUId)) :
    ∀ (ln lb : Nat) (r : ShardUId),
    colVal ((innerRow ln lb rights).2.1) r +
      lookupSum ((innerRow ln lb rights).2.2) r = colVal rights r := by
  induction rights with
  | nil => intro ln lb r; simp [innerRow, colVal, lookupSum]
  | cons p rest ih =>
    intro ln lb r
    rcases p with ⟨rb, rs⟩
    rw [innerRow_cons]
    have hg := stepGrant_le_rb ln (rest.length + 1) lb rb
    have hih := ih ln (lb - stepGrant ln (rest.length + 1) lb rb) r
    rw [colVal_cons, lookupSum_cons, colVal_cons]
    by_cases hr : rs = r
    · rw [if_pos hr, if_pos hr, if_pos hr]
      omega
    · rw [if_neg hr, if_neg hr, if_neg hr]
      omega

theorem innerRow_vals_length (rights : List (Nat × ShardUId)) :
    ∀ (ln lb : Nat), (innerRow ln lb rights).2.1.length = rights.length := by
  induction rights with
  | nil => intro ln lb; rfl
  | cons p rest ih =>
    intro ln lb
    rcases p with ⟨rb, rs⟩
    rw [innerRow_cons]
    simp only [List.length_cons]
    rw [ih]

theorem sum_lower_bound (l : List Nat) (x : Nat) (h : ∀ v ∈ l, x ≤ v) :
    l.length * x ≤ l.sum := by
  induction l with
  | nil => simp
  | cons a rest ih =>
    simp only [List.length_cons, List.sum_cons]
    have ha := h a (List.mem_cons_self a rest)
    have hr := ih (fun v hv => h v (List.mem_cons_of_mem a hv))
    have e : (rest.length + 1) * x = rest.length * x + x := by
      rw [Nat.add_mul, Nat.one_mul]
    omega

/-- The key step of the drain argument: after one inner step of a left row,
the tail of the right entries can still absorb everything the remaining left
rows (all at least as large as the current one) will ask of it. -/
theorem drain_step (ln lb x : Nat) (restVals : List Nat) (hln : 1 ≤ ln)
    (hsorted : ∀ v ∈ restVals, x ≤ v)
    (hsum : ln * lb ≤ x + restVals.sum) :
    ln * (lb - stepGrant ln (restVals.length + 1) lb x) ≤ restVals.sum := by
  set rn := restVals.length + 1 with hrn
  set g := stepGrant ln rn lb x with hgdef
  have hgle : g ≤ lb := stepGrant_le_lb ln rn lb x (by omega)
  have hsplit : ln * lb = ln * (lb - g) + ln * g := by
    rw [← Nat.mul_add]
    congr 1
    omega
  -- it suffices to prove the additive form
  suffices hadd : ln * lb ≤ restVals.sum + ln * g by omega
  have hxd := Nat.div_add_mod x ln
  have hlbd := Nat.div_add_mod lb rn
  rw [hgdef]
  unfold stepGrant
  by_cases hc : x / ln + x % ln ≤ lb / rn + lb % rn
  · -- capacity-limited: the grant is right_max, and ln * right_max ≥ x
    rw [Nat.min_eq_right hc]
    have hmul : ln * (x / ln + x % ln) = ln * (x / ln) + ln * (x % ln) :=
      Nat.mul_add ln _ _
    have h2 : x % ln ≤ ln * (x % ln) := Nat.le_mul_of_pos_left _ (by omega)
    omega
  · -- left-limited: the grant is left_max = q + s
    rw [Nat.min_eq_left (by omega)]
    have hmul : ln * (lb / rn + lb % rn) = ln * (lb / rn) + ln * (lb % rn) :=
      Nat.mul_add ln _ _
    by_cases hx2 : x ≤ ln * (lb / rn)
    · -- the head entry is small: the sum hypothesis alone suffices
      omega
    · -- the head entry is large: every tail entry is ≥ x > ln * q
      have hS := sum_lower_bound restVals x hsorted
      have e1 : ln * lb = ln * (rn * (lb / rn)) + ln * (lb % rn) := by
        conv_lhs => rw [← hlbd]
        rw [Nat.mul_add]
      have e2 : ln * (rn * (lb / rn)) = rn * (ln * (lb / rn)) := by ring
      have e3 : rn * (ln * (lb / rn)) =
          restVals.length * (ln * (lb / rn)) + ln * (lb / rn) := by
        rw [hrn, Nat.add_mul, Nat.one_mul]
      have e4 : restVals.length * (ln * (lb / rn) + 1) ≤
          restVals.length * x := Nat.mul_le_mul_left _ (by omega)
      have e5 : restVals.length * (ln * (lb / rn) + 1) =
          restVals.length * (ln * (lb / rn)) + restVals.length := by
        rw [Nat.mul_add, Nat.mul_one]
      omega

/-- The adjacent-entries step of the sortedness argument: processing a row
over two adjacent right entries `x ≤ y` keeps the results ordered.  `m` is
the number of right entries after `y`. -/
theorem adjacent_step (ln lb x y m : Nat) (hln : 1 ≤ ln) (hxy : x ≤ y) :
    x - stepGrant ln (m + 2) lb x ≤
      y - stepGrant ln (m + 1) (lb - stepGrant ln (m + 2) lb x) y := by
  have hxd := Nat.div_add_mod x ln
  have hyd := Nat.div_add_mod y ln
  have hlbd := Nat.div_add_mod lb (m + 2)
  have hdivxy : x / ln ≤ y / ln := Nat.div_le_div_right hxy
  have ex : (ln - 1) * (x / ln) + (x / ln) = ln * (x / ln) := by
    have : (ln - 1) + 1 = ln := by omega
    calc (ln - 1) * (x / ln) + x / ln = ((ln - 1) + 1) * (x / ln) := by
          rw [Nat.add_mul, Nat.one_mul]
      _ = ln * (x / ln) := by rw [this]
  have ey : (ln - 1) * (y / ln) + (y / ln) = ln * (y / ln) := by
    have : (ln - 1) + 1 = ln := by omega
    calc (ln - 1) * (y / ln) + y / ln = ((ln - 1) + 1) * (y / ln) := by
          rw [Nat.add_mul, Nat.one_mul]
      _ = ln * (y / ln) := by rw [this]
  have exy : (ln - 1) * (x / ln) ≤ (ln - 1) * (y / ln) :=
    Nat.mul_le_mul_left _ hdivxy
  unfold stepGrant
  by_cases hcx : x / ln + x % ln ≤ lb / (m + 2) + lb % (m + 2)
  · -- first step capacity-limited: x drops to (ln-1) * (x/ln)
    rw [Nat.min_eq_right hcx]
    have hgy := Nat.min_le_right
      ((lb - (x / ln + x % ln)) / (m + 1) + (lb - (x / ln + x % ln)) % (m + 1))
      (y / ln + y % ln)
    omega
  · -- first step left-limited: the grant is exactly q + s and the remaining
    -- left bandwidth is exactly (m+1) * q, so the next left_max is exactly q
    rw [Nat.min_eq_left (by omega)]
    set q := lb / (m + 2) with hq
    set s := lb % (m + 2) with hs
    have elb : lb - (q + s) = (m + 1) * q := by
      have e2 : (m + 2) * q = (m + 1) * q + q := by
        rw [Nat.add_mul, Nat.add_mul, Nat.one_mul]
        omega
      omega
    rw [elb]
    have ediv : (m + 1) * q / (m + 1) = q :=
      Nat.mul_div_cancel_left q (by omega)
    have emod : (m + 1) * q % (m + 1) = 0 := Nat.mul_mod_right _ _
    rw [ediv, emod]
    by_cases hcy : q + 0 ≤ y / ln + y % ln
    · -- second step left-limited: it takes exactly q
      rw [Nat.min_eq_left hcy]
      omega
    · -- second step capacity-limited: y drops to (ln-1) * (y/ln),
      -- and right_max y < q gives the needed room
      rw [Nat.min_eq_right (by omega)]
      omega

theorem innerRow_drain (rights : List (Nat × ShardUId)) : ∀ (ln lb : Nat),
    1 ≤ ln →
    (rights.map (fun e => e.1)).Pairwise (· ≤ ·) →
    ln * lb ≤ (rights.map (fun e => e.1)).sum →
    (innerRow ln lb rights).1 = 0 := by
  induction rights with
  | nil =>
    intro ln lb hln _ hsum
    simp only [List.map_nil, List.sum_nil] at hsum
    have hlb : lb ≤ ln * lb := Nat.le_mul_of_pos_left _ (by omega)
    show lb = 0
    omega
  | cons p rest ih =>
    intro ln lb hln hpw hsum
    rcases p with ⟨x, xs⟩
    simp only [List.map_cons, List.sum_cons] at hsum
    rw [List.map_cons, List.pairwise_cons] at hpw
    obtain ⟨hhead, htail⟩ := hpw
    rw [innerRow_cons]
    have hstep := drain_step ln lb x (rest.map (fun e => e.1)) hln hhead
      (by omega)
    rw [List.length_map] at hstep
    exact ih ln _ hln htail hstep

theorem innerRow_sorted (rights : List (Nat × ShardUId)) : ∀ (ln lb : Nat),
    1 ≤ ln →
    (rights.map (fun e => e.1)).Chain' (· ≤ ·) →
    ((innerRow ln lb rights).2.1.map (fun e => e.1)).Chain' (· ≤ ·) := by
  induction rights with
  | nil => intro ln lb _ _; simp [innerRow]
  | cons p rest ih =>
    intro ln lb hln hch
    rcases p with ⟨x, xs⟩
    cases rest with
    | nil =>
      rw [innerRow_cons]
      simp [innerRow]
    | cons p2 rest2 =>
      rcases p2 with ⟨y, ys⟩
      obtain ⟨hxy, htail⟩ := List.chain'_cons.mp (by
        simpa using hch)
      rw [innerRow_cons, List.map_cons]
      have hout := ih ln
        (lb - stepGrant ln (((y, ys) :: rest2).length + 1) lb x) hln
        (by simpa using htail)
      refine List.chain'_cons'.mpr ⟨?_, hout⟩
      intro z hz
      rw [innerRow_cons, List.map_cons, List.head?_cons] at hz
      rw [Option.mem_def, Option.some_inj] at hz
      subst hz
      have hlen : ((y, ys) :: rest2).length + 1 = rest2.length + 2 := by
        simp
      rw [hlen]
      exact adjacent_step ln lb x y rest2.length hln hxy

theorem innerRow_rights_sum (rights : List (Nat × ShardUId)) :
    ∀ (ln lb : Nat),
    ((innerRow ln lb rights).2.1.map (fun e => e.1)).sum +
      ((innerRow ln lb rights).2.2.map (fun e => e.2)).sum =
      (rights.map (fun e => e.1)).sum := by
  induction rights with
  | nil => intro ln lb; simp [innerRow]
  | cons p rest ih =>
    intro ln lb
    rcases p with ⟨rb, rs⟩
    rw [innerRow_cons]
    simp only [List.map_cons, List.sum_cons]
    have hg := stepGrant_le_rb ln (rest.length + 1) lb rb
    have hih := ih ln (lb - stepGrant ln (rest.length + 1) lb rb)
    omega

theorem sumFrom_cons (f t v : Nat) (l : List (ShardLink × Nat))
    (s : ShardUId) :
    sumFrom (((f, t), v) :: l) s = (if f = s then v else 0) + sumFrom l s := by
  unfold sumFrom
  rw [List.filter_cons]
  by_cases h : f = s
  · subst h
    simp
  · simp [h]

theorem sumTo_cons (f t v : Nat) (l : List (ShardLink × Nat)) (s : ShardUId) :
    sumTo (((f, t), v) :: l) s = (if t = s then v else 0) + sumTo l s := by
  unfold sumTo
  rw [List.filter_cons]
  by_cases h : t = s
  · subst h
    simp
  · simp [h]

theorem sumFrom_append (g1 g2 : List (ShardLink × Nat)) (s : ShardUId) :
    sumFrom (g1 ++ g2) s = sumFrom g1 s + sumFrom g2 s := by
  simp [sumFrom, List.filter_append]

theorem sumTo_append (g1 g2 : List (ShardLink × Nat)) (s : ShardUId) :
    sumTo (g1 ++ g2) s = sumTo g1 s + sumTo g2 s := by
  simp [sumTo, List.filter_append]

theorem sumFrom_rowGrants (gs : List (ShardUId × Nat)) (ls s : ShardUId) :
    sumFrom (gs.map (fun e => ((ls, e.1), e.2))) s =
      if ls = s then (gs.map (fun e => e.2)).sum else 0 := by
  induction gs with
  | nil =>
    simp [sumFrom]
  | cons e rest ih =>
    rcases e with ⟨a, v⟩
    rw [List.map_cons, sumFrom_cons, ih]
    by_cases h : ls = s
    · rw [if_pos h, if_pos h, if_pos h]
      simp
    · rw [if_neg h, if_neg h, if_neg h]

theorem sumTo_rowGrants (gs : List (ShardUId × Nat)) (ls r : ShardUId) :
    sumTo (gs.map (fun e => ((ls, e.1), e.2))) r = lookupSum gs r := by
  induction gs with
  | nil => simp [sumTo, lookupSum]
  | cons e rest ih =>
    rcases e with ⟨a, v⟩
    rw [List.map_cons, sumTo_cons, lookupSum_cons, ih]

theorem sumFrom_flip (G : List (ShardLink × Nat)) (s : ShardUId) :
    sumFrom (G.map (fun e => ((e.1.2, e.1.1), e.2))) s = sumTo G s := by
  induction G with
  | nil => rfl
  | cons e rest ih =>
    rcases e with ⟨⟨f, t⟩, v⟩
    rw [List.map_cons, sumFrom_cons, sumTo_cons, ih]

theorem sumTo_flip (G : List (ShardLink × Nat)) (s : ShardUId) :
    sumTo (G.map (fun e => ((e.1.2, e.1.1), e.2))) s = sumFrom G s := by
  induction G with
  | nil => rfl
  | cons e rest ih =>
    rcases e with ⟨⟨f, t⟩, v⟩
    rw [List.map_cons, sumTo_cons, sumFrom_cons, ih]

theorem outerRows_cons (lv ls : Nat) (restLefts rights : List (Nat × ShardUId)) :
    outerRows ((lv, ls) :: restLefts) rights =
      (if (innerRow (restLefts.length + 1) lv rights).1 = 0 then
        match outerRows restLefts
            (innerRow (restLefts.length + 1) lv rights).2.1 with
        | none => none
        | some (grants, rightsFinal) =>
          some (((innerRow (restLefts.length + 1) lv rights).2.2.map
            (fun e => ((ls, e.1), e.2))) ++ grants, rightsFinal)
      else none) :=
  rfl

theorem outerRows_spec : ∀ (lefts rights : List (Nat × ShardUId)),
    (lefts.map (fun e => e.1)).Pairwise (· ≤ ·) →
    (rights.map (fun e => e.1)).Chain' (· ≤ ·) →
    (lefts.map (fun e => e.1)).sum ≤ (rights.map (fun e => e.1)).sum →
    ∃ grants rightsFinal,
      outerRows lefts rights = some (grants, rightsFinal) ∧
      (grants.map (fun g => g.2)).sum = (lefts.map (fun e => e.1)).sum ∧
      (∀ s, sumFrom grants s ≤ colVal lefts s) ∧
      (∀ r, sumTo grants r ≤ colVal rights r) := by
  intro lefts
  induction lefts with
  | nil =>
    intro rights _ _ _
    refine ⟨[], rights, rfl, by simp, fun s => by simp [sumFrom, colVal],
      fun r => ?_⟩
    show sumTo [] r ≤ colVal rights r
    have h0 : sumTo [] r = 0 := rfl
    omega
  | cons p restLefts ih =>
    intro rights hpw hch hsum
    rcases p with ⟨lv, ls⟩
    simp only [List.map_cons, List.sum_cons] at hsum
    rw [List.map_cons, List.pairwise_cons] at hpw
    obtain ⟨hhead, htail⟩ := hpw
    have hlnlv : (restLefts.length + 1) * lv ≤
        (rights.map (fun e => e.1)).sum := by
      have hlow := sum_lower_bound (restLefts.map (fun e => e.1)) lv hhead
      rw [List.length_map] at hlow
      have he : (restLefts.length + 1) * lv = restLefts.length * lv + lv := by
        rw [Nat.add_mul, Nat.one_mul]
      omega
    have hdrain := innerRow_drain rights (restLefts.length + 1) lv (by omega)
      (List.chain'_iff_pairwise.mp hch) hlnlv
    rw [outerRows_cons, if_pos hdrain]
    have hchain2 := innerRow_sorted rights (restLefts.length + 1) lv
      (by omega) hch
    have hgs := innerRow_sum rights (restLefts.length + 1) lv
    rw [hdrain] at hgs
    have hsum2 : (restLefts.map (fun e => e.1)).sum ≤
        ((innerRow (restLefts.length + 1) lv rights).2.1.map
          (fun e => e.1)).sum := by
      have h1 := innerRow_rights_sum rights (restLefts.length + 1) lv
      omega
    obtain ⟨grants2, rightsF, hout2, htot2, hfrom2, hto2⟩ :=
      ih _ htail hchain2 hsum2
    rw [hout2]
    refine ⟨_, rightsF, rfl, ?_, ?_, ?_⟩
    · rw [List.map_append, List.sum_append, List.map_map]
      have hcomp : ((fun g => g.2) ∘ (fun e => ((ls, e.1), e.2)) :
          (ShardUId × Nat) → Nat) = fun e => e.2 := rfl
      rw [hcomp, htot2]
      simp only [List.map_cons, List.sum_cons]
      omega
    · intro s
      rw [sumFrom_append, sumFrom_rowGrants, colVal_cons]
      have hf2 := hfrom2 s
      by_cases h : ls = s
      · rw [if_pos h, if_pos h]
        omega
      · rw [if_neg h, if_neg h]
        omega
    · intro r
      rw [sumTo_append, sumTo_rowGrants]
      have hcv := innerRow_colVal rights (restLefts.length + 1) lv r
      have ht2 := hto2 r
      omega

theorem colVal_swap (m : List (ShardUId × Nat)) (s : ShardUId) :
    colVal (m.map (fun e => (e.2, e.1))) s = lookupSum m s := by
  induction m with
  | nil => rfl
  | cons e rest ih =>
    rcases e with ⟨k, v⟩
    rw [List.map_cons, colVal_cons, lookupSum_cons, ih]

theorem distributeSorted_eq (left right : List (ShardUId × Nat)) :
    distributeSorted left right =
      (match outerRows (sortPairs (left.map (fun e => (e.2, e.1))))
          (sortPairs (right.map (fun e => (e.2, e.1)))) with
      | none => none
      | some (grants, _) => some grants) :=
  rfl

theorem sortPairs_spec (m : List (ShardUId × Nat)) :
    ((sortPairs (m.map (fun e => (e.2, e.1)))).map
      (fun e => e.1)).Pairwise (· ≤ ·) ∧
    ((sortPairs (m.map (fun e => (e.2, e.1)))).map (fun e => e.1)).sum =
      mapValsSum m ∧
    ∀ s, colVal (sortPairs (m.map (fun e => (e.2, e.1)))) s = lookupSum m s := by
  have hsorted : (sortPairs (m.map (fun e => (e.2, e.1)))).Pairwise pairLe :=
    List.sorted_insertionSort pairLe _
  have hperm : (sortPairs (m.map (fun e => (e.2, e.1)))).Perm
      (m.map (fun e => (e.2, e.1))) :=
    List.perm_insertionSort pairLe _
  refine ⟨?_, ?_, ?_⟩
  · rw [List.pairwise_map]
    refine hsorted.imp ?_
    intro a b hab
    unfold pairLe at hab
    omega
  · rw [(hperm.map (fun e => e.1)).sum_eq, List.map_map]
    rfl
  · intro s
    have h2 : colVal (sortPairs (m.map (fun e => (e.2, e.1)))) s =
        colVal (m.map (fun e => (e.2, e.1))) s := by
      unfold colVal
      exact ((hperm.filter (fun e => e.2 == s)).map (fun e => e.1)).sum_eq
    rw [h2, colVal_swap]

theorem distributeSorted_spec (left right : List (ShardUId × Nat))
    (hle : mapValsSum left ≤ mapValsSum right) :
    ∃ grants, distributeSorted left right = some grants ∧
      (grants.map (fun g => g.2)).sum = mapValsSum left ∧
      (∀ s, sumFrom grants s ≤ lookupSum left s) ∧
      (∀ r, sumTo grants r ≤ lookupSum right r) := by
  obtain ⟨hpwL, hsumL, hcolL⟩ := sortPairs_spec left
  obtain ⟨hpwR, hsumR, hcolR⟩ := sortPairs_spec right
  have hchR := List.chain'_iff_pairwise.mpr hpwR
  obtain ⟨grants, rightsF, hout, htot, hfrom, hto⟩ :=
    outerRows_spec (sortPairs (left.map (fun e => (e.2, e.1))))
      (sortPairs (right.map (fun e => (e.2, e.1)))) hpwL hchR
      (by rw [hsumL, hsumR]; exact hle)
  refine ⟨grants, ?_, by rw [htot, hsumL], ?_, ?_⟩
  · rw [distributeSorted_eq, hout]
  · intro s
    have h := hfrom s
    rw [hcolL s] at h
    exact h
  · intro r
    have h := hto r
    rw [hcolR r] at h
    exact h

theorem distributeRemaining_aux
    (left right : List (ShardUId × Nat)) :
    ∃ G, distribute_remaining_bandwidth left right = some G ∧
      (G.map (fun g => g.2)).sum = min (mapValsSum left) (mapValsSum right) ∧
      (∀ l, sumFrom G l ≤ lookupSum left l) ∧
      (∀ r, sumTo G r ≤ lookupSum right r) := by
  unfold distribute_remaining_bandwidth
  by_cases hc : mapValsSum right < mapValsSum left
  · rw [if_pos hc]
    obtain ⟨grants, hds, htot, hfrom, hto⟩ :=
      distributeSorted_spec right left (by omega)
    rw [hds]
    refine ⟨_, rfl, ?_, ?_, ?_⟩
    · rw [List.map_map]
      have hcomp : ((fun g => g.2) ∘ (fun e => ((e.1.2, e.1.1), e.2)) :
          (ShardLink × Nat) → Nat) = fun g => g.2 := rfl
      rw [hcomp, htot]
      omega
    · intro l
      rw [sumFrom_flip]
      exact hto l
    · intro r
      rw [sumTo_flip]
      exact hfrom r
  · rw [if_neg hc]
    obtain ⟨grants, hds, htot, hfrom, hto⟩ :=
      distributeSorted_spec left right (by omega)
    rw [hds]
    refine ⟨grants, rfl, ?_, hfrom, hto⟩
    rw [htot]
    omega

theorem mapGetD_update_self {K V : Type} [DecidableEq K]
    (m : List (K × V)) (k : K) (v d : V) :
    mapGetD (mapUpdate m k v) k d = v := by
  induction m with
  | nil => simp [mapGetD, mapGet, mapUpdate]
  | cons e rest ih =>
    rcases e with ⟨k2, v2⟩
    unfold mapUpdate
    by_cases h : k2 = k
    · rw [if_pos h]
      simp [mapGetD, mapGet]
    · rw [if_neg h]
      unfold mapGetD mapGet
      rw [if_neg h]
      exact ih

theorem mapGetD_update_other {K V : Type} [DecidableEq K]
    (m : List (K × V)) (k x : K) (v d : V) (hx : x ≠ k) :
    mapGetD (mapUpdate m k v) x d = mapGetD m x d := by
  have hkx : k ≠ x := fun h => hx h.symm
  induction m with
  | nil =>
    simp only [mapUpdate, mapGetD, mapGet]
    rw [if_neg hkx]
  | cons e rest ih =>
    rcases e with ⟨k2, v2⟩
    unfold mapUpdate
    by_cases h : k2 = k
    · rw [if_pos h]
      unfold mapGetD mapGet
      rw [if_neg hkx, if_neg (h ▸ hkx)]
    · rw [if_neg h]
      unfold mapGetD mapGet
      by_cases h2 : k2 = x
      · rw [if_pos h2, if_pos h2]
      · rw [if_neg h2, if_neg h2]
        exact ih

theorem mapGetD_orInsert {K : Type} [DecidableEq K]
    (m : List (K × Nat)) (k x : K) :
    mapGetD (mapOrInsertZero m k) x 0 = mapGetD m x 0 := by
  unfold mapOrInsertZero
  rcases hg : mapGet m k with _ | v
  · by_cases hx : x = k
    · subst hx
      rw [mapGetD_update_self]
      unfold mapGetD
      rw [hg]
      rfl
    · rw [mapGetD_update_other _ _ _ _ _ hx]
  · rfl

theorem mapGet_cons {K V : Type} [DecidableEq K] (k2 : K) (v2 : V)
    (rest : List (K × V)) (k : K) :
    mapGet ((k2, v2) :: rest) k =
      if k2 = k then some v2 else mapGet rest k := rfl

theorem mapGetD_def {K V : Type} [DecidableEq K] (m : List (K × V)) (k : K)
    (d : V) : mapGetD m k d = (mapGet m k).getD d := rfl

theorem sumFrom_update_bump (g : List (ShardLink × Nat)) (f t inc : Nat)
    (s : ShardUId) :
    sumFrom (mapUpdate g (f, t) (mapGetD g (f, t) 0 + inc)) s =
      sumFrom g s + (if f = s then inc else 0) := by
  induction g with
  | nil =>
    show sumFrom [((f, t), mapGetD ([] : List (ShardLink × Nat)) (f, t) 0
      + inc)] s = _
    rw [sumFrom_cons]
    have h0 : mapGetD ([] : List (ShardLink × Nat)) (f, t) 0 = 0 := rfl
    rw [h0]
    have h1 : sumFrom [] s = 0 := rfl
    by_cases hs : f = s
    · rw [if_pos hs, if_pos hs]
      omega
    · rw [if_neg hs, if_neg hs]
      omega
  | cons e rest ih =>
    rcases e with ⟨⟨f2, t2⟩, v2⟩
    unfold mapUpdate
    by_cases hk : ((f2, t2) : ShardLink) = (f, t)
    · rw [if_pos hk]
      have hget : mapGetD (((f2, t2), v2) :: rest) (f, t) 0 = v2 := by
        unfold mapGetD mapGet
        rw [if_pos hk]
        rfl
      rw [hget, sumFrom_cons, sumFrom_cons]
      have hf : f2 = f := congrArg Prod.fst hk
      subst hf
      by_cases hs : f2 = s
      · rw [if_pos hs, if_pos hs, if_pos hs]
        omega
      · rw [if_neg hs, if_neg hs, if_neg hs]
        omega
    · rw [if_neg hk]
      have hget : mapGetD (((f2, t2), v2) :: rest) (f, t) 0 =
          mapGetD rest (f, t) 0 := by
        rw [mapGetD_def, mapGetD_def, mapGet_cons, if_neg hk]
      rw [hget, sumFrom_cons, sumFrom_cons, ih]
      omega

theorem sumTo_update_bump (g : List (ShardLink × Nat)) (f t inc : Nat)
    (s : ShardUId) :
    sumTo (mapUpdate g (f, t) (mapGetD g (f, t) 0 + inc)) s =
      sumTo g s + (if t = s then inc else 0) := by
  induction g with
  | nil =>
    show sumTo [((f, t), mapGetD ([] : List (ShardLink × Nat)) (f, t) 0
      + inc)] s = _
    rw [sumTo_cons]
    have h0 : mapGetD ([] : List (ShardLink × Nat)) (f, t) 0 = 0 := rfl
    rw [h0]
    have h1 : sumTo [] s = 0 := rfl
    by_cases hs : t = s
    · rw [if_pos hs, if_pos hs]
      omega
    · rw [if_neg hs, if_neg hs]
      omega
  | cons e rest ih =>
    rcases e with ⟨⟨f2, t2⟩, v2⟩
    unfold mapUpdate
    by_cases hk : ((f2, t2) : ShardLink) = (f, t)
    · rw [if_pos hk]
      have hget : mapGetD (((f2, t2), v2) :: rest) (f, t) 0 = v2 := by
        unfold mapGetD mapGet
        rw [if_pos hk]
        rfl
      rw [hget, sumTo_cons, sumTo_cons]
      have ht : t2 = t := congrArg Prod.snd hk
      subst ht
      by_cases hs : t2 = s
      · rw [if_pos hs, if_pos hs, if_pos hs]
        omega
      · rw [if_neg hs, if_neg hs, if_neg hs]
        omega
    · rw [if_neg hk]
      have hget : mapGetD (((f2, t2), v2) :: rest) (f, t) 0 =
          mapGetD rest (f, t) 0 := by
        rw [mapGetD_def, mapGetD_def, mapGet_cons, if_neg hk]
      rw [hget, sumTo_cons, sumTo_cons, ih]
      omega

theorem mapGetD_le_sumFrom (g : List (ShardLink × Nat)) (f t : Nat) :
    mapGetD g (f, t) 0 ≤ sumFrom g f := by
  induction g with
  | nil =>
    have h1 : sumFrom [] f = 0 := rfl
    have h2 : mapGetD ([] : List (ShardLink × Nat)) (f, t) 0 = 0 := rfl
    omega
  | cons e rest ih =>
    rcases e with ⟨⟨f2, t2⟩, v2⟩
    rw [sumFrom_cons]
    unfold mapGetD mapGet
    by_cases hk : ((f2, t2) : ShardLink) = (f, t)
    · rw [if_pos hk]
      have hf : f2 = f := congrArg Prod.fst hk
      rw [if_pos hf]
      simp
    · rw [if_neg hk]
      have := ih
      unfold mapGetD at this
      by_cases hf : f2 = f
      · rw [if_pos hf]
        omega
      · rw [if_neg hf]
        omega

theorem mapGetD_le_sumTo (g : List (ShardLink × Nat)) (f t : Nat) :
    mapGetD g (f, t) 0 ≤ sumTo g t := by
  induction g with
  | nil =>
    have h1 : sumTo [] t = 0 := rfl
    have h2 : mapGetD ([] : List (ShardLink × Nat)) (f, t) 0 = 0 := rfl
    omega
  | cons e rest ih =>
    rcases e with ⟨⟨f2, t2⟩, v2⟩
    rw [sumTo_cons]
    unfold mapGetD mapGet
    by_cases hk : ((f2, t2) : ShardLink) = (f, t)
    · rw [if_pos hk]
      have ht : t2 = t := congrArg Prod.snd hk
      rw [if_pos ht]
      simp
    · rw [if_neg hk]
      have := ih
      unfold mapGetD at this
      by_cases ht : t2 = t
      · rw [if_pos ht]
        omega
      · rw [if_neg ht]
        omega

theorem mem_keys_mapUpdate {K V : Type} [DecidableEq K]
    (m : List (K × V)) (k x : K) (v : V)
    (h : x ∈ (mapUpdate m k v).map (fun e => e.1)) :
    x = k ∨ x ∈ m.map (fun e => e.1) := by
  induction m with
  | nil =>
    simp only [mapUpdate, List.map_cons, List.map_nil] at h
    rcases List.mem_cons.mp h with h2 | h2
    · exact Or.inl h2
    · cases h2
  | cons e rest ih =>
    rcases e with ⟨k2, v2⟩
    unfold mapUpdate at h
    by_cases hk : k2 = k
    · rw [if_pos hk] at h
      simp only [List.map_cons] at h
      rcases List.mem_cons.mp h with h2 | h2
      · exact Or.inl h2
      · right
        rw [List.map_cons]
        exact List.mem_cons_of_mem _ h2
    · rw [if_neg hk] at h
      simp only [List.map_cons] at h
      rcases List.mem_cons.mp h with h2 | h2
      · right
        rw [List.map_cons]
        exact h2 ▸ List.mem_cons_self _ _
      · rcases ih h2 with h3 | h3
        · exact Or.inl h3
        · right
          rw [List.map_cons]
          exact List.mem_cons_of_mem _ h3

theorem keysNodup_mapUpdate {K V : Type} [DecidableEq K]
    (m : List (K × V)) (k : K) (v : V) (h : keysNodup m) :
    keysNodup (mapUpdate m k v) := by
  induction m with
  | nil => simp [keysNodup, mapUpdate]
  | cons e rest ih =>
    rcases e with ⟨k2, v2⟩
    unfold keysNodup at h ⊢
    rw [List.map_cons, List.nodup_cons] at h
    unfold mapUpdate
    by_cases hk : k2 = k
    · rw [if_pos hk]
      rw [List.map_cons, List.nodup_cons]
      exact ⟨hk ▸ h.1, h.2⟩
    · rw [if_neg hk]
      rw [List.map_cons, List.nodup_cons]
      refine ⟨?_, ih h.2⟩
      intro hmem
      rcases mem_keys_mapUpdate rest k k2 v hmem with h2 | h2
      · exact hk h2
      · exact h.1 h2

theorem keysNodup_orInsert {K : Type} [DecidableEq K]
    (m : List (K × Nat)) (k : K) (h : keysNodup m) :
    keysNodup (mapOrInsertZero m k) := by
  unfold mapOrInsertZero
  rcases mapGet m k with _ | v
  · exact keysNodup_mapUpdate m k 0 h
  · exact h

theorem lookupSum_zero_of_not_mem (m : List (ShardUId × Nat)) (s : ShardUId)
    (h : s ∉ m.map (fun e => e.1)) : lookupSum m s = 0 := by
  induction m with
  | nil => rfl
  | cons e rest ih =>
    rcases e with ⟨k, v⟩
    rw [List.map_cons] at h
    rw [lookupSum_cons]
    have hk : k ≠ s := fun h2 => h (h2 ▸ List.mem_cons_self _ _)
    rw [if_neg hk]
    rw [ih (fun h2 => h (List.mem_cons_of_mem _ h2))]

theorem lookupSum_eq_mapGetD (m : List (ShardUId × Nat)) (s : ShardUId)
    (h : keysNodup m) : lookupSum m s = mapGetD m s 0 := by
  induction m with
  | nil => rfl
  | cons e rest ih =>
    rcases e with ⟨k, v⟩
    unfold keysNodup at h
    rw [List.map_cons, List.nodup_cons] at h
    rw [lookupSum_cons]
    unfold mapGetD mapGet
    by_cases hk : k = s
    · rw [if_pos hk, if_pos hk]
      rw [lookupSum_zero_of_not_mem rest s (hk ▸ h.1)]
      rfl
    · rw [if_neg hk, if_neg hk]
      rw [ih h.2]
      show 0 + mapGetD rest s 0 = mapGetD rest s 0
      omega

/-- C1: for every pair of spare-capacity maps `L, R`,
`distribute_remaining_bandwidth(L, R)` returns (the internal
`assert_eq!(left_bandwidth, 0)` never fires) a grant map `G` with
`Σ G = min(Σ L, Σ R)`, `Σ_r G[(l, r)] ≤ L[l]` for every left shard `l`, and
`Σ_l G[(l, r)] ≤ R[r]` for every right shard `r`. -/
theorem distribute_remaining_bandwidth_spec
    (left right : List (ShardUId × Nat)) :
    ∃ G, distribute_remaining_bandwidth left right = some G ∧
      (G.map (fun g => g.2)).sum = min (mapValsSum left) (mapValsSum right) ∧
      (∀ l, sumFrom G l ≤ lookupSum left l) ∧
      (∀ r, sumTo G r ≤ lookupSum right r) :=
  distributeRemaining_aux left right

theorem tryGrant_eq (st : BandwidthScheduler) (f t inc : Nat) :
    st.try_grant_additional_bandwidth (f, t) inc =
      (if inc > mapGetD (mapOrInsertZero st.outgoing_limits f) f 0 ∨
          inc > mapGetD (mapOrInsertZero st.incoming_limits t) t 0
       then ({ st with
           outgoing_limits := mapOrInsertZero st.outgoing_limits f,
           incoming_limits := mapOrInsertZero st.incoming_limits t }, false)
       else ({ st with
           granted_bandwdith := mapUpdate st.granted_bandwdith (f, t)
             (mapGetD st.granted_bandwdith (f, t) 0 + inc),
           outgoing_limits := mapUpdate
             (mapOrInsertZero st.outgoing_limits f) f
             (mapGetD (mapOrInsertZero st.outgoing_limits f) f 0 - inc),
           incoming_limits := mapUpdate
             (mapOrInsertZero st.incoming_limits t) t
             (mapGetD (mapOrInsertZero st.incoming_limits t) t 0 - inc) },
         true)) := rfl

theorem tryGrant_schedInv (chunks : List (ShardUId × Option Chunk))
    (st : BandwidthScheduler) (link : ShardLink) (inc : Nat)
    (h : schedInv chunks st) :
    schedInv chunks (st.try_grant_additional_bandwidth link inc).1 := by
  obtain ⟨hout, hin, hnO, hnI⟩ := h
  rcases link with ⟨f, t⟩
  rw [tryGrant_eq]
  by_cases hg : inc > mapGetD (mapOrInsertZero st.outgoing_limits f) f 0 ∨
      inc > mapGetD (mapOrInsertZero st.incoming_limits t) t 0
  · rw [if_pos hg]
    refine ⟨?_, ?_, keysNodup_orInsert _ _ hnO, keysNodup_orInsert _ _ hnI⟩
    · intro s
      show sumFrom st.granted_bandwdith s +
        mapGetD (mapOrInsertZero st.outgoing_limits f) s 0 = outInit chunks s
      rw [mapGetD_orInsert]
      exact hout s
    · intro s
      show sumTo st.granted_bandwdith s +
        mapGetD (mapOrInsertZero st.incoming_limits t) s 0 = inInit chunks s
      rw [mapGetD_orInsert]
      exact hin s
  · rw [if_neg hg]
    push_neg at hg
    refine ⟨?_, ?_,
      keysNodup_mapUpdate _ _ _ (keysNodup_orInsert _ _ hnO),
      keysNodup_mapUpdate _ _ _ (keysNodup_orInsert _ _ hnI)⟩
    · intro s
      show sumFrom (mapUpdate st.granted_bandwdith (f, t)
          (mapGetD st.granted_bandwdith (f, t) 0 + inc)) s +
        mapGetD (mapUpdate (mapOrInsertZero st.outgoing_limits f) f
          (mapGetD (mapOrInsertZero st.outgoing_limits f) f 0 - inc)) s 0 =
        outInit chunks s
      rw [sumFrom_update_bump]
      by_cases hs : f = s
      · subst hs
        rw [if_pos rfl, mapGetD_update_self]
        have h1 := hout f
        have h2 := mapGetD_orInsert st.outgoing_limits f f
        have h3 := hg.1
        omega
      · rw [if_neg hs,
          mapGetD_update_other _ _ _ _ _ (fun h2 => hs h2.symm),
          mapGetD_orInsert]
        have h1 := hout s
        omega
    · intro s
      show sumTo (mapUpdate st.granted_bandwdith (f, t)
          (mapGetD st.granted_bandwdith (f, t) 0 + inc)) s +
        mapGetD (mapUpdate (mapOrInsertZero st.incoming_limits t) t
          (mapGetD (mapOrInsertZero st.incoming_limits t) t 0 - inc)) s 0 =
        inInit chunks s
      rw [sumTo_update_bump]
      by_cases hs : t = s
      · subst hs
        rw [if_pos rfl, mapGetD_update_self]
        have h1 := hin t
        have h2 := mapGetD_orInsert st.incoming_limits t t
        have h3 := hg.2
        omega
      · rw [if_neg hs,
          mapGetD_update_other _ _ _ _ _ (fun h2 => hs h2.symm),
          mapGetD_orInsert]
        have h1 := hin s
        omega

theorem schedInv_set_allowance (chunks : List (ShardUId × Option Chunk))
    (st : BandwidthScheduler) (l : ShardLink) (a : Nat)
    (h : schedInv chunks st) : schedInv chunks (st.set_allowance l a) := h

theorem schedInv_add_allowance (chunks : List (ShardUId × Option Chunk))
    (st : BandwidthScheduler) (l : ShardLink) (a : Nat)
    (h : schedInv chunks st) : schedInv chunks (st.add_allowance l a) := h

theorem schedInv_decrease_allowance (chunks : List (ShardUId × Option Chunk))
    (st : BandwidthScheduler) (l : ShardLink) (a : Nat)
    (h : schedInv chunks st) : schedInv chunks (st.decrease_allowance l a) :=
  h

theorem foldl_preserves {σ α : Type} (f : σ → α → σ) (P : σ → Prop)
    (hf : ∀ s x, P s → P (f s x)) :
    ∀ (l : List α) (s : σ), P s → P (l.foldl f s) := by
  intro l
  induction l with
  | nil => intro s h; exact h
  | cons x rest ih =>
    intro s h
    rw [List.foldl_cons]
    exact ih (f s x) (hf s x h)

theorem processGroup_schedInv (chunks : List (ShardUId × Option Chunk))
    (reqs : List BandwidthIncreaseRequests) (gs : GroupMap)
    (st : BandwidthScheduler) (h : schedInv chunks st) :
    schedInv chunks (processGroup reqs gs st).2 := by
  unfold processGroup
  refine foldl_preserves _ (fun acc => schedInv chunks acc.2) ?_ reqs
    (gs, st) h
  intro acc r hacc
  rcases hr : r.bandwidth_increases with _ | ⟨b, rest⟩
  · simp only [hr]
    exact hacc
  · simp only [hr]
    by_cases hok : (acc.2.try_grant_additional_bandwidth r.shard_link b).2 =
        true
    · rw [if_pos hok]
      exact schedInv_decrease_allowance chunks _ _ _
        (tryGrant_schedInv chunks acc.2 r.shard_link b hacc)
    · rw [if_neg hok]
      exact tryGrant_schedInv chunks acc.2 r.shard_link b hacc

theorem schedLoop_schedInv (chunks : List (ShardUId × Option Chunk))
    (shuffle : Nat → List BandwidthIncreaseRequests →
      List BandwidthIncreaseRequests) :
    ∀ (fuel step : Nat) (groups : GroupMap) (st st2 : BandwidthScheduler),
      schedInv chunks st →
      schedLoop shuffle step fuel groups st = some st2 →
      schedInv chunks st2 := by
  intro fuel
  induction fuel with
  | zero =>
    intro step groups st st2 h hloop
    unfold schedLoop at hloop
    rcases hgl : groups.getLast? with _ | g
    · rw [hgl] at hloop
      simp only at hloop
      exact (Option.some.inj hloop) ▸ h
    · rw [hgl] at hloop
      simp only at hloop
      cases hloop
  | succ fuel2 ih =>
    intro step groups st st2 h hloop
    unfold schedLoop at hloop
    rcases hgl : groups.getLast? with _ | g
    · rw [hgl] at hloop
      simp only at hloop
      exact (Option.some.inj hloop) ▸ h
    · rw [hgl] at hloop
      simp only at hloop
      exact ih (step + 1) _ _ st2
        (processGroup_schedInv chunks _ _ _ h) hloop

theorem grantBase_schedInv (chunks : List (ShardUId × Option Chunk))
    (all_shards : List ShardUId) (base_bandwidth : Nat)
    (st : BandwidthScheduler) (h : schedInv chunks st) :
    schedInv chunks (grantBase all_shards base_bandwidth st) := by
  unfold grantBase
  refine foldl_preserves _ (schedInv chunks) ?_ all_shards st h
  intro s f hs
  refine foldl_preserves _ (schedInv chunks) ?_ all_shards s hs
  intro s2 t hs2
  exact tryGrant_schedInv chunks s2 (f, t) base_bandwidth hs2

theorem applyRemaining_schedInv (chunks : List (ShardUId × Option Chunk))
    (grants : List (ShardLink × Nat)) :
    ∀ (st st2 : BandwidthScheduler), schedInv chunks st →
      applyRemaining grants st = some st2 → schedInv chunks st2 := by
  induction grants with
  | nil =>
    intro st st2 h happ
    exact (Option.some.inj happ) ▸ h
  | cons g rest ih =>
    intro st st2 h happ
    unfold applyRemaining at happ
    by_cases hok : (st.try_grant_additional_bandwidth g.1 g.2).2 = true
    · rw [if_pos hok] at happ
      exact ih _ st2 (tryGrant_schedInv chunks st g.1 g.2 h) happ
    · rw [if_neg hok] at happ
      cases happ

theorem tryGrant_eq_ok (st : BandwidthScheduler) (f t inc : Nat)
    (hO : inc ≤ mapGetD st.outgoing_limits f 0)
    (hI : inc ≤ mapGetD st.incoming_limits t 0) :
    st.try_grant_additional_bandwidth (f, t) inc =
      ({ st with
          granted_bandwdith := mapUpdate st.granted_bandwdith (f, t)
            (mapGetD st.granted_bandwdith (f, t) 0 + inc),
          outgoing_limits := mapUpdate (mapOrInsertZero st.outgoing_limits f)
            f (mapGetD st.outgoing_limits f 0 - inc),
          incoming_limits := mapUpdate (mapOrInsertZero st.incoming_limits t)
            t (mapGetD st.incoming_limits t 0 - inc) }, true) := by
  rw [tryGrant_eq, mapGetD_orInsert, mapGetD_orInsert]
  have hng : ¬(inc > mapGetD st.outgoing_limits f 0 ∨
      inc > mapGetD st.incoming_limits t 0) := by omega
  rw [if_neg hng]

theorem applyRemaining_cons (g : ShardLink × Nat)
    (rest : List (ShardLink × Nat)) (st : BandwidthScheduler) :
    applyRemaining (g :: rest) st =
      (if (st.try_grant_additional_bandwidth g.1 g.2).2 then
        applyRemaining rest (st.try_grant_additional_bandwidth g.1 g.2).1
      else none) := rfl

theorem applyRemaining_some (grants : List (ShardLink × Nat)) :
    ∀ st : BandwidthScheduler,
      keysNodup st.outgoing_limits → keysNodup st.incoming_limits →
      (∀ l, sumFrom grants l ≤ mapGetD st.outgoing_limits l 0) →
      (∀ r, sumTo grants r ≤ mapGetD st.incoming_limits r 0) →
      ∃ st2, applyRemaining grants st = some st2 := by
  induction grants with
  | nil =>
    intro st _ _ _ _
    exact ⟨st, rfl⟩
  | cons g rest ih =>
    intro st hnO hnI hF hT
    rcases g with ⟨⟨f, t⟩, v⟩
    have hvF : v ≤ mapGetD st.outgoing_limits f 0 := by
      have h1 := hF f
      rw [sumFrom_cons, if_pos rfl] at h1
      omega
    have hvT : v ≤ mapGetD st.incoming_limits t 0 := by
      have h1 := hT t
      rw [sumTo_cons, if_pos rfl] at h1
      omega
    have hstep := tryGrant_eq_ok st f t v hvF hvT
    rw [show applyRemaining ((((f, t) : ShardLink), v) :: rest) st =
        (if (st.try_grant_additional_bandwidth (f, t) v).2 then
          applyRemaining rest (st.try_grant_additional_bandwidth (f, t) v).1
        else none) from rfl, hstep]
    rw [if_pos rfl]
    refine ih ({ st with
        granted_bandwdith := mapUpdate st.granted_bandwdith (f, t)
          (mapGetD st.granted_bandwdith (f, t) 0 + v),
        outgoing_limits := mapUpdate (mapOrInsertZero st.outgoing_limits f)
          f (mapGetD st.outgoing_limits f 0 - v),
        incoming_limits := mapUpdate (mapOrInsertZero st.incoming_limits t)
          t (mapGetD st.incoming_limits t 0 - v) }) ?_ ?_ ?_ ?_
    · exact keysNodup_mapUpdate _ _ _ (keysNodup_orInsert _ _ hnO)
    · exact keysNodup_mapUpdate _ _ _ (keysNodup_orInsert _ _ hnI)
    · intro l
      show sumFrom rest l ≤ mapGetD (mapUpdate
        (mapOrInsertZero st.outgoing_limits f) f
        (mapGetD st.outgoing_limits f 0 - v)) l 0
      by_cases hl : l = f
      · subst hl
        rw [mapGetD_update_self]
        have h1 := hF l
        rw [sumFrom_cons, if_pos rfl] at h1
        omega
      · rw [mapGetD_update_other _ _ _ _ _ hl, mapGetD_orInsert]
        have h1 := hF l
        rw [sumFrom_cons, if_neg (fun h3 => hl h3.symm)] at h1
        omega
    · intro r
      show sumTo rest r ≤ mapGetD (mapUpdate
        (mapOrInsertZero st.incoming_limits t) t
        (mapGetD st.incoming_limits t 0 - v)) r 0
      by_cases hr : r = t
      · subst hr
        rw [mapGetD_update_self]
        have h1 := hT r
        rw [sumTo_cons, if_pos rfl] at h1
        omega
      · rw [mapGetD_update_other _ _ _ _ _ hr, mapGetD_orInsert]
        have h1 := hT r
        rw [sumTo_cons, if_neg (fun h3 => hr h3.symm)] at h1
        omega

theorem mapGet_none_of_not_mem {K V : Type} [DecidableEq K]
    (m : List (K × V)) (k : K) (h : k ∉ m.map (fun e => e.1)) :
    mapGet m k = none := by
  induction m with
  | nil => rfl
  | cons e rest ih =>
    rcases e with ⟨k2, v2⟩
    rw [List.map_cons] at h
    rw [mapGet_cons]
    rw [if_neg (fun h2 => h (List.mem_cons.mpr (Or.inl h2.symm)))]
    exact ih (fun h2 => h (List.mem_cons_of_mem _ h2))

theorem replenishAllowances_fields (all_shards : List ShardUId)
    (a : Nat) (st : BandwidthScheduler) :
    (replenishAllowances all_shards a st).granted_bandwdith =
      st.granted_bandwdith ∧
    (replenishAllowances all_shards a st).outgoing_limits =
      st.outgoing_limits ∧
    (replenishAllowances all_shards a st).incoming_limits =
      st.incoming_limits := by
  unfold replenishAllowances
  refine foldl_preserves _ (fun st2 =>
    st2.granted_bandwdith = st.granted_bandwdith ∧
    st2.outgoing_limits = st.outgoing_limits ∧
    st2.incoming_limits = st.incoming_limits) ?_ all_shards st
    ⟨rfl, rfl, rfl⟩
  intro s f hs
  refine foldl_preserves _ (fun st2 =>
    st2.granted_bandwdith = st.granted_bandwdith ∧
    st2.outgoing_limits = st.outgoing_limits ∧
    st2.incoming_limits = st.incoming_limits) ?_ all_shards s hs
  intro s2 t hs2
  exact hs2

theorem initLimits_cons (e : ShardUId × Option Chunk)
    (rest : List (ShardUId × Option Chunk)) (st : BandwidthScheduler) :
    initLimits (e :: rest) st = initLimits rest
      { st with
        outgoing_limits := mapUpdate st.outgoing_limits e.1
          MAX_SHARD_BANDWIDTH,
        incoming_limits := mapUpdate st.incoming_limits e.1
          (if e.2.isSome then MAX_SHARD_BANDWIDTH else 0) } := rfl

theorem initLimits_granted (chunks : List (ShardUId × Option Chunk))
    (st : BandwidthScheduler) :
    (initLimits chunks st).granted_bandwdith = st.granted_bandwdith := by
  unfold initLimits
  refine foldl_preserves _
    (fun st2 => st2.granted_bandwdith = st.granted_bandwdith) ?_ chunks st
    rfl
  intro s2 e hs2
  exact hs2

theorem initLimits_nodup (chunks : List (ShardUId × Option Chunk))
    (st : BandwidthScheduler) (hO : keysNodup st.outgoing_limits)
    (hI : keysNodup st.incoming_limits) :
    keysNodup (initLimits chunks st).outgoing_limits ∧
    keysNodup (initLimits chunks st).incoming_limits := by
  unfold initLimits
  refine foldl_preserves _ (fun st2 =>
    keysNodup st2.outgoing_limits ∧ keysNodup st2.incoming_limits) ?_
    chunks st ⟨hO, hI⟩
  intro s2 e hs2
  exact ⟨keysNodup_mapUpdate _ _ _ hs2.1, keysNodup_mapUpdate _ _ _ hs2.2⟩

theorem initLimits_out (chunks : List (ShardUId × Option Chunk)) :
    ∀ (st : BandwidthScheduler) (s : ShardUId),
      mapGetD (initLimits chunks st).outgoing_limits s 0 =
        if s ∈ chunks.map (fun e => e.1) then MAX_SHARD_BANDWIDTH
        else mapGetD st.outgoing_limits s 0 := by
  induction chunks with
  | nil =>
    intro st s
    rw [if_neg (by simp)]
    rfl
  | cons e rest ih =>
    intro st s
    rw [initLimits_cons, ih]
    rw [List.map_cons]
    by_cases hmem : s ∈ rest.map (fun e => e.1)
    · rw [if_pos hmem, if_pos (List.mem_cons_of_mem _ hmem)]
    · rw [if_neg hmem]
      by_cases hk : e.1 = s
      · have hc : s ∈ e.1 :: rest.map (fun e2 => e2.1) :=
          List.mem_cons.mpr (Or.inl hk.symm)
        rw [if_pos hc]
        show mapGetD (mapUpdate st.outgoing_limits e.1
          MAX_SHARD_BANDWIDTH) s 0 = MAX_SHARD_BANDWIDTH
        rw [hk, mapGetD_update_self]
      · have hnc : s ∉ e.1 :: rest.map (fun e2 => e2.1) := by
          intro hcon
          rcases List.mem_cons.mp hcon with h2 | h2
          · exact hk h2.symm
          · exact hmem h2
        rw [if_neg hnc]
        show mapGetD (mapUpdate st.outgoing_limits e.1
          MAX_SHARD_BANDWIDTH) s 0 = mapGetD st.outgoing_limits s 0
        exact mapGetD_update_other _ _ _ _ _ (fun h2 => hk h2.symm)

theorem initLimits_in (chunks : List (ShardUId × Option Chunk))
    (hnd : (chunks.map (fun e => e.1)).Nodup) :
    ∀ (st : BandwidthScheduler) (s : ShardUId),
      mapGetD (initLimits chunks st).incoming_limits s 0 =
        match mapGet chunks s with
        | some c => if c.isSome then MAX_SHARD_BANDWIDTH else 0
        | none => mapGetD st.incoming_limits s 0 := by
  induction chunks with
  | nil =>
    intro st s
    rfl
  | cons e rest ih =>
    intro st s
    rw [List.map_cons, List.nodup_cons] at hnd
    rw [initLimits_cons, ih hnd.2]
    by_cases hk : e.1 = s
    · have hrest : mapGet rest s = none :=
        mapGet_none_of_not_mem _ _ (hk ▸ hnd.1)
      rw [hrest]
      have hcons : mapGet (e :: rest) s = some e.2 := by
        rcases e with ⟨k, c⟩
        rw [mapGet_cons, if_pos hk]
      rw [hcons]
      show mapGetD (mapUpdate st.incoming_limits e.1
        (if e.2.isSome then MAX_SHARD_BANDWIDTH else 0)) s 0 = _
      rw [hk, mapGetD_update_self]
    · have hcons : mapGet (e :: rest) s = mapGet rest s := by
        rcases e with ⟨k, c⟩
        rw [mapGet_cons, if_neg hk]
      rw [hcons]
      rcases hmr : mapGet rest s with _ | c
      · simp only [hmr]
        show mapGetD (mapUpdate st.incoming_limits e.1
          (if e.2.isSome then MAX_SHARD_BANDWIDTH else 0)) s 0 =
          mapGetD st.incoming_limits s 0
        exact mapGetD_update_other _ _ _ _ _ (fun h2 => hk h2.symm)
      · simp only [hmr]

theorem schedInv_init (chunks : List (ShardUId × Option Chunk))
    (hnd : (chunks.map (fun e => e.1)).Nodup) (st : BandwidthScheduler)
    (hg : st.granted_bandwdith = []) (hO : st.outgoing_limits = [])
    (hI : st.incoming_limits = []) :
    schedInv chunks (initLimits chunks st) := by
  have hOn : keysNodup st.outgoing_limits := by
    rw [hO]
    exact List.nodup_nil
  have hIn : keysNodup st.incoming_limits := by
    rw [hI]
    exact List.nodup_nil
  refine ⟨?_, ?_, (initLimits_nodup chunks st hOn hIn).1,
    (initLimits_nodup chunks st hOn hIn).2⟩
  · intro s
    rw [initLimits_granted, hg]
    have hsf : sumFrom [] s = 0 := rfl
    rw [initLimits_out chunks st s, hO]
    unfold outInit
    by_cases hs : s ∈ chunks.map (fun e => e.1)
    · rw [if_pos hs, if_pos hs]
      omega
    · rw [if_neg hs, if_neg hs]
      have hz : mapGetD ([] : List (ShardUId × Nat)) s 0 = 0 := rfl
      omega
  · intro s
    rw [initLimits_granted, hg]
    have hst : sumTo [] s = 0 := rfl
    rw [initLimits_in chunks hnd st s, hI]
    unfold inInit
    rcases hmg : mapGet chunks s with _ | c
    · simp only [hmg]
      have hz : mapGetD ([] : List (ShardUId × Nat)) s 0 = 0 := rfl
      omega
    · simp only [hmg]
      rcases c with _ | ch
      · rw [if_neg (by simp)]
        show sumTo [] s + 0 = 0
        omega
      · rw [if_pos (by simp)]
        show sumTo [] s + MAX_SHARD_BANDWIDTH = MAX_SHARD_BANDWIDTH
        omega

theorem groupsMeasure_cons (k : Nat) (rs : List BandwidthIncreaseRequests)
    (rest : GroupMap) :
    groupsMeasure ((k, rs) :: rest) =
      (1 + (rs.map reqContrib).sum) + groupsMeasure rest := by
  unfold groupsMeasure
  rw [List.map_cons, List.sum_cons]

theorem groupsMeasure_append (g1 g2 : GroupMap) :
    groupsMeasure (g1 ++ g2) = groupsMeasure g1 + groupsMeasure g2 := by
  unfold groupsMeasure
  rw [List.map_append, List.sum_append]

theorem groupsInsert_measure (gs : GroupMap) (a : Nat)
    (r : BandwidthIncreaseRequests) :
    groupsMeasure (groupsInsert gs a r) ≤
      groupsMeasure gs + 1 + reqContrib r := by
  induction gs with
  | nil =>
    show groupsMeasure [(a, [r])] ≤ groupsMeasure [] + 1 + reqContrib r
    rw [groupsMeasure_cons]
    have h1 : groupsMeasure ([] : GroupMap) = 0 := rfl
    have h2 : (([r].map reqContrib)).sum = reqContrib r + 0 := rfl
    omega
  | cons e rest ih =>
    rcases e with ⟨k, rs⟩
    rw [show groupsInsert ((k, rs) :: rest) a r =
      (if a < k then (a, [r]) :: (k, rs) :: rest
       else if k = a then (k, rs ++ [r]) :: rest
       else (k, rs) :: groupsInsert rest a r) from rfl]
    by_cases h1 : a < k
    · rw [if_pos h1]
      rw [groupsMeasure_cons, groupsMeasure_cons]
      have h2 : (([r].map reqContrib)).sum = reqContrib r + 0 := rfl
      omega
    · rw [if_neg h1]
      by_cases h2 : k = a
      · rw [if_pos h2]
        rw [groupsMeasure_cons, groupsMeasure_cons]
        rw [List.map_append, List.sum_append]
        have h3 : (([r].map reqContrib)).sum = reqContrib r + 0 := rfl
        omega
      · rw [if_neg h2]
        rw [groupsMeasure_cons, groupsMeasure_cons]
        omega

theorem processGroup_cons_nil (r : BandwidthIncreaseRequests)
    (rest : List BandwidthIncreaseRequests) (gs : GroupMap)
    (st : BandwidthScheduler) (h : r.bandwidth_increases = []) :
    processGroup (r :: rest) gs st = processGroup rest gs st := by
  unfold processGroup
  rw [List.foldl_cons]
  simp only [h]

theorem processGroup_cons_inc (r : BandwidthIncreaseRequests)
    (rest : List BandwidthIncreaseRequests) (gs : GroupMap)
    (st : BandwidthScheduler) (b : Nat) (restInc : List Nat)
    (h : r.bandwidth_increases = b :: restInc) :
    processGroup (r :: rest) gs st =
      (if (st.try_grant_additional_bandwidth r.shard_link b).2 then
        processGroup rest
          (groupsInsert gs
            (((st.try_grant_additional_bandwidth r.shard_link
                b).1.decrease_allowance r.shard_link b).get_allowance
              r.shard_link)
            (BandwidthIncreaseRequests.mk r.shard_link restInc))
          ((st.try_grant_additional_bandwidth r.shard_link
            b).1.decrease_allowance r.shard_link b)
      else processGroup rest gs
        (st.try_grant_additional_bandwidth r.shard_link b).1) := by
  unfold processGroup
  rw [List.foldl_cons]
  simp only [h]
  by_cases hok : (st.try_grant_additional_bandwidth r.shard_link b).2 = true
  · rw [if_pos hok, if_pos hok]
  · rw [if_neg hok, if_neg hok]

theorem processGroup_measure :
    ∀ (reqs : List BandwidthIncreaseRequests) (gs : GroupMap)
      (st : BandwidthScheduler),
      groupsMeasure (processGroup reqs gs st).1 ≤
        groupsMeasure gs + (reqs.map reqContrib).sum := by
  intro reqs
  induction reqs with
  | nil =>
    intro gs st
    show groupsMeasure gs ≤ groupsMeasure gs + (([] : List Nat)).sum
    simp
  | cons r rest ih =>
    intro gs st
    rw [List.map_cons, List.sum_cons]
    rcases hr : r.bandwidth_increases with _ | ⟨b, restInc⟩
    · rw [processGroup_cons_nil r rest gs st hr]
      have h1 := ih gs st
      omega
    · rw [processGroup_cons_inc r rest gs st b restInc hr]
      have hcontrib : reqContrib r = 1 + (b :: restInc).length := by
        unfold reqContrib
        rw [hr]
      by_cases hok :
          (st.try_grant_additional_bandwidth r.shard_link b).2 = true
      · rw [if_pos hok]
        have h1 := ih (groupsInsert gs
            (((st.try_grant_additional_bandwidth r.shard_link
                b).1.decrease_allowance r.shard_link b).get_allowance
              r.shard_link)
            (BandwidthIncreaseRequests.mk r.shard_link restInc))
          ((st.try_grant_additional_bandwidth r.shard_link
            b).1.decrease_allowance r.shard_link b)
        have h2 := groupsInsert_measure gs
          (((st.try_grant_additional_bandwidth r.shard_link
              b).1.decrease_allowance r.shard_link b).get_allowance
            r.shard_link)
          (BandwidthIncreaseRequests.mk r.shard_link restInc)
        have h3 : reqContrib (BandwidthIncreaseRequests.mk r.shard_link
            restInc) = 1 + restInc.length := rfl
        have h4 : (b :: restInc).length = restInc.length + 1 :=
          List.length_cons b restInc
        omega
      · rw [if_neg hok]
        have h1 := ih gs
          (st.try_grant_additional_bandwidth r.shard_link b).1
        omega

theorem schedLoop_some
    (shuffle : Nat → List BandwidthIncreaseRequests →
      List BandwidthIncreaseRequests)
    (hsh : ∀ k l, (shuffle k l).Perm l) :
    ∀ (fuel : Nat) (groups : GroupMap) (st : BandwidthScheduler)
      (step : Nat), groupsMeasure groups < fuel →
      ∃ st2, schedLoop shuffle step fuel groups st = some st2 := by
  intro fuel
  induction fuel with
  | zero =>
    intro groups st step h
    omega
  | succ fuel2 ih =>
    intro groups st step h
    unfold schedLoop
    rcases hgl : groups.getLast? with _ | g
    · exact ⟨st, rfl⟩
    · have hdecomp : groups.dropLast ++ [g] = groups :=
        List.dropLast_append_getLast? g (Option.mem_def.mpr hgl)
      have hmeas : groupsMeasure groups =
          groupsMeasure groups.dropLast + groupsMeasure [g] := by
        rw [← groupsMeasure_append, hdecomp]
      have hmeas2 : groupsMeasure [g] =
          (1 + (g.2.map reqContrib).sum) + groupsMeasure [] :=
        groupsMeasure_cons g.1 g.2 []
      have hmeas3 : groupsMeasure ([] : GroupMap) = 0 := rfl
      have hpg := processGroup_measure (shuffle step g.2) groups.dropLast st
      have hsum : ((shuffle step g.2).map reqContrib).sum =
          (g.2.map reqContrib).sum :=
        List.Perm.sum_eq ((hsh step g.2).map reqContrib)
      obtain ⟨st2, hst2⟩ := ih
        (processGroup (shuffle step g.2) groups.dropLast st).1
        (processGroup (shuffle step g.2) groups.dropLast st).2
        (step + 1) (by omega)
      exact ⟨st2, hst2⟩

theorem runSteps_eq (st0 : BandwidthScheduler) (pb : Block)
    (shuffle : Nat → List BandwidthIncreaseRequests →
      List BandwidthIncreaseRequests) :
    runSteps st0 pb shuffle =
      (match buildRequests (presetState st0 pb) pb.chunks
          (BandwidthScheduler.get_base_bandwidth
            (pb.chunks.map (fun e => e.1)).length) with
       | none => none
       | some groups =>
         match schedLoop shuffle 0 (groupsMeasure groups + 1) groups
             (presetState st0 pb) with
         | none => none
         | some st4 =>
           match distribute_remaining_bandwidth st4.outgoing_limits
               st4.incoming_limits with
           | none => none
           | some remaining_bandwidth_grants =>
             match applyRemaining remaining_bandwidth_grants st4 with
             | none => none
             | some st5 =>
               some (st5.granted_bandwdith,
                 { st5 with granted_bandwdith := [] })) := rfl

theorem get_base_bandwidth_le (n : Nat) :
    BandwidthScheduler.get_base_bandwidth n ≤ MAX_BASE_BANDWIDTH := by
  show (if (MAX_SHARD_BANDWIDTH - MAX_RECEIPT_SIZE) / n > MAX_BASE_BANDWIDTH
    then MAX_BASE_BANDWIDTH
    else (MAX_SHARD_BANDWIDTH - MAX_RECEIPT_SIZE) / n) ≤ MAX_BASE_BANDWIDTH
  by_cases h : (MAX_SHARD_BANDWIDTH - MAX_RECEIPT_SIZE) / n >
      MAX_BASE_BANDWIDTH
  · rw [if_pos h]
  · rw [if_neg h]
    omega

theorem from_bandwidth_request_some (s : ShardUId) (req : BandwidthRequest)
    (base_bandwidth : Nat) (hB5 : base_bandwidth ≤ 500000) :
    ∃ ir, BandwidthIncreaseRequests.from_bandwidth_request
      (s, req.to_shard) req base_bandwidth = some ir := by
  obtain ⟨opts, hopts, hpw, hgt⟩ :=
    from_bitmap_spec req.grant_options_bitmap base_bandwidth hB5
  obtain ⟨l, hl, _⟩ := increasesLoop_spec opts base_bandwidth hpw hgt
  refine ⟨BandwidthIncreaseRequests.mk (s, req.to_shard) l, ?_⟩
  unfold BandwidthIncreaseRequests.from_bandwidth_request
  rw [if_pos rfl, hopts]
  show (match increasesLoop base_bandwidth opts with
    | none => none
    | some bandwidth_increases =>
      some (BandwidthIncreaseRequests.mk (s, req.to_shard)
        bandwidth_increases)) =
    some (BandwidthIncreaseRequests.mk (s, req.to_shard) l)
  rw [hl]

theorem foldl_some {α β : Type} (f : Option β → α → Option β)
    (hf : ∀ b x, ∃ b2, f (some b) x = some b2) :
    ∀ (l : List α) (b : β), ∃ b2, l.foldl f (some b) = some b2 := by
  intro l
  induction l with
  | nil =>
    intro b
    exact ⟨b, rfl⟩
  | cons x rest ih =>
    intro b
    rw [List.foldl_cons]
    obtain ⟨b2, hb2⟩ := hf b x
    rw [hb2]
    exact ih b2

theorem buildRequests_some (st : BandwidthScheduler)
    (chunks : List (ShardUId × Option Chunk)) (base_bandwidth : Nat)
    (hB5 : base_bandwidth ≤ 500000) :
    ∃ groups, buildRequests st chunks base_bandwidth = some groups := by
  unfold buildRequests
  refine foldl_some _ ?_ chunks []
  intro groups e
  rcases e with ⟨shard, copt⟩
  rcases copt with _ | chunk
  · exact ⟨groups, rfl⟩
  · show ∃ b2, chunk.bandwidth_requests.foldl _ (some groups) = some b2
    refine foldl_some _ ?_ chunk.bandwidth_requests groups
    intro gs req
    obtain ⟨ir, hir⟩ :=
      from_bandwidth_request_some shard req base_bandwidth hB5
    show ∃ b2, (match BandwidthIncreaseRequests.from_bandwidth_request
        (shard, req.to_shard) req base_bandwidth with
      | none => none
      | some internal_request =>
        some (groupsInsert gs
          (st.get_allowance (shard, req.to_shard)) internal_request)) =
      some b2
    rw [hir]
    exact ⟨_, rfl⟩

theorem run_chain (st : BandwidthScheduler) (pb : Block)
    (shuffle : Nat → List BandwidthIncreaseRequests →
      List BandwidthIncreaseRequests)
    (hsh : ∀ k l, (shuffle k l).Perm l)
    (hnd : (pb.chunks.map (fun e => e.1)).Nodup)
    (hne : pb.chunks ≠ []) :
    ∃ groups st4 G st5,
      buildRequests (presetState (resetSched st) pb) pb.chunks
        (BandwidthScheduler.get_base_bandwidth
          (pb.chunks.map (fun e => e.1)).length) = some groups ∧
      schedLoop shuffle 0 (groupsMeasure groups + 1) groups
        (presetState (resetSched st) pb) = some st4 ∧
      schedInv pb.chunks st4 ∧
      distribute_remaining_bandwidth st4.outgoing_limits
        st4.incoming_limits = some G ∧
      applyRemaining G st4 = some st5 ∧
      schedInv pb.chunks st5 ∧
      st.run pb shuffle = some (st5.granted_bandwdith,
        { st5 with granted_bandwdith := [] }) := by
  have hB5 : BandwidthScheduler.get_base_bandwidth
      (pb.chunks.map (fun e => e.1)).length ≤ 500000 := by
    have h1 := get_base_bandwidth_le (pb.chunks.map (fun e => e.1)).length
    unfold MAX_BASE_BANDWIDTH at h1
    omega
  have hfields := replenishAllowances_fields (pb.chunks.map (fun e => e.1))
    (MAX_SHARD_BANDWIDTH / (pb.chunks.map (fun e => e.1)).length)
    (resetSched st)
  have hInv2 : schedInv pb.chunks (initLimits pb.chunks
      (replenishAllowances (pb.chunks.map (fun e => e.1))
        (MAX_SHARD_BANDWIDTH / (pb.chunks.map (fun e => e.1)).length)
        (resetSched st))) :=
    schedInv_init pb.chunks hnd _ (hfields.1.trans rfl)
      (hfields.2.1.trans rfl) (hfields.2.2.trans rfl)
  have hInv3 : schedInv pb.chunks (presetState (resetSched st) pb) := by
    unfold presetState
    exact grantBase_schedInv pb.chunks _ _ _ hInv2
  obtain ⟨groups, hgroups⟩ := buildRequests_some
    (presetState (resetSched st) pb) pb.chunks
    (BandwidthScheduler.get_base_bandwidth
      (pb.chunks.map (fun e => e.1)).length) hB5
  obtain ⟨st4, hst4⟩ := schedLoop_some shuffle hsh
    (groupsMeasure groups + 1) groups (presetState (resetSched st) pb) 0
    (by omega)
  have hInv4 : schedInv pb.chunks st4 :=
    schedLoop_schedInv pb.chunks shuffle (groupsMeasure groups + 1) 0
      groups _ st4 hInv3 hst4
  obtain ⟨G, hG, hGsum, hGF, hGT⟩ :=
    distributeRemaining_aux st4.outgoing_limits st4.incoming_limits
  have hF : ∀ l, sumFrom G l ≤ mapGetD st4.outgoing_limits l 0 := by
    intro l
    have h1 := hGF l
    rw [lookupSum_eq_mapGetD _ _ hInv4.2.2.1] at h1
    exact h1
  have hT : ∀ r, sumTo G r ≤ mapGetD st4.incoming_limits r 0 := by
    intro r
    have h1 := hGT r
    rw [lookupSum_eq_mapGetD _ _ hInv4.2.2.2] at h1
    exact h1
  obtain ⟨st5, hst5⟩ := applyRemaining_some G st4 hInv4.2.2.1 hInv4.2.2.2
    hF hT
  have hInv5 := applyRemaining_schedInv pb.chunks G st4 st5 hInv4 hst5
  have hemp : ¬((pb.chunks.map (fun e => e.1)).isEmpty = true) := by
    rcases hc : pb.chunks with _ | ⟨e, rest⟩
    · exact absurd hc hne
    · simp [hc]
  have hrun : st.run pb shuffle = some (st5.granted_bandwdith,
      { st5 with granted_bandwdith := [] }) := by
    unfold BandwidthScheduler.run
    rw [if_neg hemp, runSteps_eq]
    simp only [hgroups, hst4, hG, hst5]
  exact ⟨groups, st4, G, st5, hgroups, hst4, hInv4, hG, hst5, hInv5, hrun⟩

/-- C10: the step-5 request-processing loop of `run` terminates on every
input: with the group-map measure (number of pending requests plus their
remaining deltas, plus one per group) as fuel, the loop always drains the
group map and returns (it never hits the artificial out-of-fuel state),
because each iteration pops one group and re-inserts each processed request
with strictly smaller contribution. -/
theorem sched_loop_terminates
    (shuffle : Nat → List BandwidthIncreaseRequests →
      List BandwidthIncreaseRequests)
    (hsh : ∀ k l, (shuffle k l).Perm l)
    (groups : GroupMap) (st : BandwidthScheduler) (step : Nat) :
    ∃ st2, schedLoop shuffle step (groupsMeasure groups + 1) groups st =
      some st2 :=
  schedLoop_some shuffle hsh (groupsMeasure groups + 1) groups st step
    (by omega)

/-- Witness for C10: the identity shuffle on a one-group map with a single
two-delta request (measure 4, fuel 5). -/
theorem sched_loop_terminates_witness :
    (∀ k l, ((fun (_ : Nat) (l2 : List BandwidthIncreaseRequests) => l2) k
      l).Perm l) ∧
    ∃ st2, schedLoop (fun _ l2 => l2) 7
      (groupsMeasure [(5, [BandwidthIncreaseRequests.mk (0, 1)
        [100, 200]])] + 1)
      [(5, [BandwidthIncreaseRequests.mk (0, 1) [100, 200]])]
      BandwidthScheduler.new = some st2 :=
  ⟨fun _ l => List.Perm.refl l,
   sched_loop_terminates (fun _ l2 => l2) (fun _ l => List.Perm.refl l)
     [(5, [BandwidthIncreaseRequests.mk (0, 1) [100, 200]])]
     BandwidthScheduler.new 7⟩

/-- C3: `run` is deterministic: with the RNG seeded from
`prev_block.height` (the shuffle family is indexed by the height, as
`Shard::next_height` seeds its `StdRng`), equal previous blocks and equal
starting allowance tables yield the same granted map and the same ending
allowance table. -/
theorem run_deterministic
    (shuffleFam : Nat → Nat → List BandwidthIncreaseRequests →
      List BandwidthIncreaseRequests)
    (pb1 pb2 : Block) (st1 st2 : BandwidthScheduler)
    (hpb : pb1 = pb2) (hal : st1.allowances = st2.allowances) :
    Option.map (fun r => (r.1, r.2.allowances))
        (st1.run pb1 (shuffleFam pb1.height)) =
      Option.map (fun r => (r.1, r.2.allowances))
        (st2.run pb2 (shuffleFam pb2.height)) := by
  subst hpb
  have hreset : resetSched st1 = resetSched st2 := by
    rcases st1 with ⟨a1, g1, i1, o1⟩
    rcases st2 with ⟨a2, g2, i2, o2⟩
    have hal2 : a1 = a2 := hal
    show BandwidthScheduler.mk a1 [] [] [] = BandwidthScheduler.mk a2 [] [] []
    rw [hal2]
  unfold BandwidthScheduler.run
  by_cases hemp : ((pb1.chunks.map (fun e => e.1)).isEmpty = true)
  · rw [if_pos hemp, if_pos hemp]
    show some (([] : List (ShardLink × Nat)), st1.allowances) =
      some ([], st2.allowances)
    rw [hal]
  · rw [if_neg hemp, if_neg hemp, hreset]

/-- Witness for C3: a concrete one-shard block and two states with equal
allowance tables. -/
theorem run_deterministic_witness :
    Option.map (fun r => (r.1, r.2.allowances))
        ((BandwidthScheduler.mk [((0, 0), 7)] [] [] [(9, 3)]).run
          (Block.mk 4 [(0, some (Chunk.mk 0 [] []))]) ((fun _ _ l => l) 4)) =
      Option.map (fun r => (r.1, r.2.allowances))
        ((BandwidthScheduler.mk [((0, 0), 7)] [((1, 2), 5)] [] []).run
          (Block.mk 4 [(0, some (Chunk.mk 0 [] []))]) ((fun _ _ l => l) 4)) :=
  run_deterministic (fun _ _ l => l)
    (Block.mk 4 [(0, some (Chunk.mk 0 [] []))])
    (Block.mk 4 [(0, some (Chunk.mk 0 [] []))])
    (BandwidthScheduler.mk [((0, 0), 7)] [] [] [(9, 3)])
    (BandwidthScheduler.mk [((0, 0), 7)] [((1, 2), 5)] [] []) rfl rfl

/-- C2: for every previous block with at least one chunk entry (distinct
chunk keys, as in a `BTreeMap`) and every starting scheduler state, `run`
returns a granted map in which every single grant is at most
`MAX_SHARD_BANDWIDTH`, every sender's row sum and every receiver's column
sum are at most `MAX_SHARD_BANDWIDTH`, and every shard whose chunk is
missing receives exactly 0 in total. -/
theorem run_grant_caps (st : BandwidthScheduler) (pb : Block)
    (shuffle : Nat → List BandwidthIncreaseRequests →
      List BandwidthIncreaseRequests)
    (hsh : ∀ k l, (shuffle k l).Perm l)
    (hnd : (pb.chunks.map (fun e => e.1)).Nodup)
    (hne : pb.chunks ≠ []) :
    ∃ granted st2, st.run pb shuffle = some (granted, st2) ∧
      (∀ l r, mapGetD granted (l, r) 0 ≤ MAX_SHARD_BANDWIDTH) ∧
      (∀ s, sumFrom granted s ≤ MAX_SHARD_BANDWIDTH) ∧
      (∀ s, sumTo granted s ≤ MAX_SHARD_BANDWIDTH) ∧
      (∀ s, mapGet pb.chunks s = some none → sumTo granted s = 0) := by
  obtain ⟨groups, st4, G, st5, h1, h2, h3, h4, h5, hInv5, hrun⟩ :=
    run_chain st pb shuffle hsh hnd hne
  have houtle : ∀ s, outInit pb.chunks s ≤ MAX_SHARD_BANDWIDTH := by
    intro s
    unfold outInit
    by_cases hm : s ∈ pb.chunks.map (fun e => e.1)
    · rw [if_pos hm]
    · rw [if_neg hm]
      omega
  have hinle : ∀ s, inInit pb.chunks s ≤ MAX_SHARD_BANDWIDTH := by
    intro s
    unfold inInit
    rcases hg : mapGet pb.chunks s with _ | c
    · simp only [hg]
      omega
    · rcases c with _ | ch
      · simp only [hg]
        omega
      · simp only [hg]
        omega
  refine ⟨st5.granted_bandwdith, { st5 with granted_bandwdith := [] },
    hrun, ?_, ?_, ?_, ?_⟩
  · intro l r
    have ha := mapGetD_le_sumFrom st5.granted_bandwdith l r
    have hb := hInv5.1 l
    have hc := houtle l
    omega
  · intro s
    have hb := hInv5.1 s
    have hc := houtle s
    omega
  · intro s
    have hb := hInv5.2.1 s
    have hc := hinle s
    omega
  · intro s hmiss
    have hb := hInv5.2.1 s
    have hz : inInit pb.chunks s = 0 := by
      unfold inInit
      simp only [hmiss]
    omega

/-- Witness for C2: `run` from the fresh scheduler on a block with one
present chunk and one missing chunk. -/
theorem run_grant_caps_witness :
    ([((0 : Nat), some (Chunk.mk 0 [] [])), (1, none)].map
      (fun e => e.1)).Nodup ∧
    ∃ granted st2, BandwidthScheduler.new.run
        (Block.mk 3 [(0, some (Chunk.mk 0 [] [])), (1, none)])
        (fun _ l => l) = some (granted, st2) ∧
      (∀ l r, mapGetD granted (l, r) 0 ≤ MAX_SHARD_BANDWIDTH) ∧
      (∀ s, sumFrom granted s ≤ MAX_SHARD_BANDWIDTH) ∧
      (∀ s, sumTo granted s ≤ MAX_SHARD_BANDWIDTH) ∧
      (∀ s, mapGet [((0 : Nat), some (Chunk.mk 0 [] [])), (1, none)] s =
          some none → sumTo granted s = 0) :=
  ⟨by decide,
   run_grant_caps BandwidthScheduler.new
     (Block.mk 3 [(0, some (Chunk.mk 0 [] [])), (1, none)]) (fun _ l => l)
     (fun _ l => List.Perm.refl l) (by decide) (List.cons_ne_nil _ _)⟩

/-- C4: in step 6 of `run`, for every previous block (nonempty, distinct
chunk keys) and every starting scheduler state, each residual grant
computed by `distribute_remaining_bandwidth` on the current limit maps fits
those limits: `applyRemaining` (the loop of `try_grant_additional_bandwidth`
calls with the fatal `expect`) succeeds on the whole grant list. -/
theorem step6_grants_fit (st : BandwidthScheduler) (pb : Block)
    (shuffle : Nat → List BandwidthIncreaseRequests →
      List BandwidthIncreaseRequests)
    (hsh : ∀ k l, (shuffle k l).Perm l)
    (hnd : (pb.chunks.map (fun e => e.1)).Nodup)
    (hne : pb.chunks ≠ []) :
    ∃ groups st4 G st5,
      buildRequests (presetState (resetSched st) pb) pb.chunks
        (BandwidthScheduler.get_base_bandwidth
          (pb.chunks.map (fun e => e.1)).length) = some groups ∧
      schedLoop shuffle 0 (groupsMeasure groups + 1) groups
        (presetState (resetSched st) pb) = some st4 ∧
      distribute_remaining_bandwidth st4.outgoing_limits
        st4.incoming_limits = some G ∧
      applyRemaining G st4 = some st5 := by
  obtain ⟨groups, st4, G, st5, h1, h2, h3, h4, h5, h6, h7⟩ :=
    run_chain st pb shuffle hsh hnd hne
  exact ⟨groups, st4, G, st5, h1, h2, h4, h5⟩

/-- Witness for C4: the pipeline from the fresh scheduler on a two-shard
block (one missing chunk). -/
theorem step6_grants_fit_witness :
    ([((0 : Nat), some (Chunk.mk 0 [] [])), (1, none)].map
      (fun e => e.1)).Nodup ∧
    ∃ groups st4 G st5,
      buildRequests (presetState (resetSched BandwidthScheduler.new)
          (Block.mk 3 [(0, some (Chunk.mk 0 [] [])), (1, none)]))
        [((0 : Nat), some (Chunk.mk 0 [] [])), (1, none)]
        (BandwidthScheduler.get_base_bandwidth
          ([((0 : Nat), some (Chunk.mk 0 [] [])), (1, none)].map
            (fun e => e.1)).length) = some groups ∧
      schedLoop (fun _ l => l) 0 (groupsMeasure groups + 1) groups
        (presetState (resetSched BandwidthScheduler.new)
          (Block.mk 3 [(0, some (Chunk.mk 0 [] [])), (1, none)])) =
        some st4 ∧
      distribute_remaining_bandwidth st4.outgoing_limits
        st4.incoming_limits = some G ∧
      applyRemaining G st4 = some st5 :=
  ⟨by decide,
   step6_grants_fit BandwidthScheduler.new
     (Block.mk 3 [(0, some (Chunk.mk 0 [] [])), (1, none)]) (fun _ l => l)
     (fun _ l => List.Perm.refl l) (by decide) (List.cons_ne_nil _ _)⟩

theorem mem_mapUpdate {K V : Type} [DecidableEq K] (m : List (K × V))
    (k : K) (v : V) (e : K × V) (h : e ∈ mapUpdate m k v) :
    e = (k, v) ∨ e ∈ m := by
  induction m with
  | nil =>
    rcases List.mem_cons.mp h with h2 | h2
    · exact Or.inl h2
    · cases h2
  | cons e2 rest ih =>
    rcases e2 with ⟨k2, v2⟩
    unfold mapUpdate at h
    by_cases hk : k2 = k
    · rw [if_pos hk] at h
      rcases List.mem_cons.mp h with h2 | h2
      · exact Or.inl h2
      · exact Or.inr (List.mem_cons_of_mem _ h2)
    · rw [if_neg hk] at h
      rcases List.mem_cons.mp h with h2 | h2
      · exact Or.inr (h2 ▸ List.mem_cons_self _ _)
      · rcases ih h2 with h3 | h3
        · exact Or.inl h3
        · exact Or.inr (List.mem_cons_of_mem _ h3)

theorem mapGet_mem {K V : Type} [DecidableEq K] (m : List (K × V)) (k : K)
    (v : V) (h : mapGet m k = some v) : (k, v) ∈ m := by
  induction m with
  | nil => cases h
  | cons e rest ih =>
    rcases e with ⟨k2, v2⟩
    rw [mapGet_cons] at h
    by_cases hk : k2 = k
    · rw [if_pos hk] at h
      have hv := Option.some.inj h
      exact List.mem_cons.mpr (Or.inl (by rw [hk, hv]))
    · rw [if_neg hk] at h
      exact List.mem_cons_of_mem _ (ih h)

theorem get_allowance_le (st : BandwidthScheduler) (l : ShardLink)
    (h : allowancesBounded st) : st.get_allowance l ≤ MAX_ALLOWANCE := by
  show mapGetD st.allowances l 0 ≤ MAX_ALLOWANCE
  rw [mapGetD_def]
  rcases hg : mapGet st.allowances l with _ | v
  · show (0 : Nat) ≤ MAX_ALLOWANCE
    unfold MAX_ALLOWANCE MAX_SHARD_BANDWIDTH
    omega
  · exact h (l, v) (mapGet_mem _ _ _ hg)

theorem allowancesBounded_set (st : BandwidthScheduler) (l : ShardLink)
    (a : Nat) (ha : a ≤ MAX_ALLOWANCE) (h : allowancesBounded st) :
    allowancesBounded (st.set_allowance l a) := by
  intro e he
  rcases mem_mapUpdate _ _ _ _ he with h2 | h2
  · rw [h2]
    exact ha
  · exact h e h2

theorem allowancesBounded_add (st : BandwidthScheduler) (l : ShardLink)
    (a : Nat) (h : allowancesBounded st) :
    allowancesBounded (st.add_allowance l a) := by
  show allowancesBounded (st.set_allowance l
    (if st.get_allowance l + a > MAX_ALLOWANCE then MAX_ALLOWANCE
     else st.get_allowance l + a))
  refine allowancesBounded_set st l _ ?_ h
  by_cases hc : st.get_allowance l + a > MAX_ALLOWANCE
  · rw [if_pos hc]
  · rw [if_neg hc]
    omega

theorem allowancesBounded_decrease (st : BandwidthScheduler) (l : ShardLink)
    (a : Nat) (h : allowancesBounded st) :
    allowancesBounded (st.decrease_allowance l a) := by
  show allowancesBounded (st.set_allowance l (st.get_allowance l - a))
  refine allowancesBounded_set st l _ ?_ h
  have hg := get_allowance_le st l h
  omega

theorem allowancesBounded_tryGrant (st : BandwidthScheduler)
    (link : ShardLink) (inc : Nat) (h : allowancesBounded st) :
    allowancesBounded (st.try_grant_additional_bandwidth link inc).1 := by
  rcases link with ⟨f, t⟩
  rw [tryGrant_eq]
  by_cases hg : inc > mapGetD (mapOrInsertZero st.outgoing_limits f) f 0 ∨
      inc > mapGetD (mapOrInsertZero st.incoming_limits t) t 0
  · rw [if_pos hg]
    exact h
  · rw [if_neg hg]
    exact h

theorem replenishAllowances_allow (all_shards : List ShardUId) (a : Nat)
    (st : BandwidthScheduler) (h : allowancesBounded st) :
    allowancesBounded (replenishAllowances all_shards a st) := by
  unfold replenishAllowances
  refine foldl_preserves _ allowancesBounded ?_ all_shards st h
  intro s f hs
  refine foldl_preserves _ allowancesBounded ?_ all_shards s hs
  intro s2 t hs2
  exact allowancesBounded_add s2 (f, t) a hs2

theorem initLimits_allow (chunks : List (ShardUId × Option Chunk))
    (st : BandwidthScheduler) (h : allowancesBounded st) :
    allowancesBounded (initLimits chunks st) := by
  unfold initLimits
  refine foldl_preserves _ allowancesBounded ?_ chunks st h
  intro s2 e hs2
  exact hs2

theorem grantBase_allow (all_shards : List ShardUId) (b : Nat)
    (st : BandwidthScheduler) (h : allowancesBounded st) :
    allowancesBounded (grantBase all_shards b st) := by
  unfold grantBase
  refine foldl_preserves _ allowancesBounded ?_ all_shards st h
  intro s f hs
  refine foldl_preserves _ allowancesBounded ?_ all_shards s hs
  intro s2 t hs2
  exact allowancesBounded_tryGrant s2 (f, t) b hs2

theorem processGroup_allow (reqs : List BandwidthIncreaseRequests)
    (gs : GroupMap) (st : BandwidthScheduler) (h : allowancesBounded st) :
    allowancesBounded (processGroup reqs gs st).2 := by
  unfold processGroup
  refine foldl_preserves _ (fun acc => allowancesBounded acc.2) ?_ reqs
    (gs, st) h
  intro acc r hacc
  rcases hr : r.bandwidth_increases with _ | ⟨b, rest⟩
  · simp only [hr]
    exact hacc
  · simp only [hr]
    by_cases hok : (acc.2.try_grant_additional_bandwidth r.shard_link b).2 =
        true
    · rw [if_pos hok]
      exact allowancesBounded_decrease _ _ _
        (allowancesBounded_tryGrant _ _ _ hacc)
    · rw [if_neg hok]
      exact allowancesBounded_tryGrant _ _ _ hacc

theorem schedLoop_allow
    (shuffle : Nat → List BandwidthIncreaseRequests →
      List BandwidthIncreaseRequests) :
    ∀ (fuel step : Nat) (groups : GroupMap) (st st2 : BandwidthScheduler),
      allowancesBounded st →
      schedLoop shuffle step fuel groups st = some st2 →
      allowancesBounded st2 := by
  intro fuel
  induction fuel with
  | zero =>
    intro step groups st st2 h hloop
    unfold schedLoop at hloop
    rcases hgl : groups.getLast? with _ | g
    · rw [hgl] at hloop
      simp only at hloop
      exact (Option.some.inj hloop) ▸ h
    · rw [hgl] at hloop
      simp only at hloop
      cases hloop
  | succ fuel2 ih =>
    intro step groups st st2 h hloop
    unfold schedLoop at hloop
    rcases hgl : groups.getLast? with _ | g
    · rw [hgl] at hloop
      simp only at hloop
      exact (Option.some.inj hloop) ▸ h
    · rw [hgl] at hloop
      simp only at hloop
      exact ih (step + 1) _ _ st2 (processGroup_allow _ _ _ h) hloop

theorem applyRemaining_allow (grants : List (ShardLink × Nat)) :
    ∀ (st st2 : BandwidthScheduler), allowancesBounded st →
      applyRemaining grants st = some st2 → allowancesBounded st2 := by
  induction grants with
  | nil =>
    intro st st2 h happ
    exact (Option.some.inj happ) ▸ h
  | cons g rest ih =>
    intro st st2 h happ
    unfold applyRemaining at happ
    by_cases hok : (st.try_grant_additional_bandwidth g.1 g.2).2 = true
    · rw [if_pos hok] at happ
      exact ih _ st2 (allowancesBounded_tryGrant st g.1 g.2 h) happ
    · rw [if_neg hok] at happ
      cases happ

theorem allowancesBounded_run (st : BandwidthScheduler) (pb : Block)
    (shuffle : Nat → List BandwidthIncreaseRequests →
      List BandwidthIncreaseRequests) (g : List (ShardLink × Nat))
    (st2 : BandwidthScheduler) (h : allowancesBounded st)
    (hrun : st.run pb shuffle = some (g, st2)) :
    allowancesBounded st2 := by
  unfold BandwidthScheduler.run at hrun
  by_cases hemp : ((pb.chunks.map (fun e => e.1)).isEmpty = true)
  · rw [if_pos hemp] at hrun
    have h2 := Option.some.inj hrun
    have h3 : st = st2 := congrArg Prod.snd h2
    exact h3 ▸ h
  · rw [if_neg hemp, runSteps_eq] at hrun
    have hpre : allowancesBounded (presetState (resetSched st) pb) := by
      unfold presetState
      exact grantBase_allow _ _ _ (initLimits_allow _ _
        (replenishAllowances_allow _ _ _ h))
    rcases hb : buildRequests (presetState (resetSched st) pb) pb.chunks
        (BandwidthScheduler.get_base_bandwidth
          (pb.chunks.map (fun e => e.1)).length) with _ | groups
    · rw [hb] at hrun
      cases hrun
    · rw [hb] at hrun
      simp only at hrun
      rcases hs4 : schedLoop shuffle 0 (groupsMeasure groups + 1) groups
          (presetState (resetSched st) pb) with _ | st4
      · rw [hs4] at hrun
        cases hrun
      · rw [hs4] at hrun
        simp only at hrun
        have hb4 : allowancesBounded st4 :=
          schedLoop_allow shuffle (groupsMeasure groups + 1) 0 groups _
            st4 hpre hs4
        rcases hG : distribute_remaining_bandwidth st4.outgoing_limits
            st4.incoming_limits with _ | G
        · rw [hG] at hrun
          cases hrun
        · rw [hG] at hrun
          simp only at hrun
          rcases hA : applyRemaining G st4 with _ | st5
          · rw [hA] at hrun
            cases hrun
          · rw [hA] at hrun
            simp only at hrun
            have hb5 : allowancesBounded st5 :=
              applyRemaining_allow G st4 st5 hb4 hA
            have h2 := Option.some.inj hrun
            have h3 : ({ st5 with granted_bandwdith := [] } :
                BandwidthScheduler) = st2 := congrArg Prod.snd h2
            exact h3 ▸ hb5

/-- C8: every value stored in the allowance table lies in
`[0, MAX_ALLOWANCE]` (values are `Nat`, so the lower bound is inherent):
the fresh scheduler's table is empty, `add_allowance` saturates at
`MAX_ALLOWANCE`, `decrease_allowance` saturates at 0 (and reads an absent
link as 0), and the bound is preserved by every call to `run`. -/
theorem allowances_in_range :
    allowancesBounded BandwidthScheduler.new ∧
    (∀ (st : BandwidthScheduler) (l : ShardLink) (a : Nat),
      allowancesBounded st → allowancesBounded (st.add_allowance l a)) ∧
    (∀ (st : BandwidthScheduler) (l : ShardLink) (a : Nat),
      allowancesBounded st → allowancesBounded (st.decrease_allowance l a)) ∧
    (∀ (st : BandwidthScheduler) (pb : Block)
      (shuffle : Nat → List BandwidthIncreaseRequests →
        List BandwidthIncreaseRequests) (g : List (ShardLink × Nat))
      (st2 : BandwidthScheduler),
      allowancesBounded st → st.run pb shuffle = some (g, st2) →
      allowancesBounded st2) :=
  ⟨fun e he => absurd he (List.not_mem_nil e),
   allowancesBounded_add, allowancesBounded_decrease, allowancesBounded_run⟩

set_option maxRecDepth 100000 in
/-- Witness for C8: an oversized `add_allowance`, a `decrease_allowance`,
and a concrete `run` from the fresh scheduler on a one-shard block. -/
theorem allowances_in_range_witness :
    allowancesBounded (BandwidthScheduler.new.add_allowance (0, 1)
      999999999) ∧
    allowancesBounded ((BandwidthScheduler.new.add_allowance (0, 1)
      999999999).decrease_allowance (0, 1) 5) ∧
    allowancesBounded (BandwidthScheduler.mk [((0, 0), 4500000)] []
      [(0, 0)] [(0, 0)]) :=
  ⟨allowances_in_range.2.1 BandwidthScheduler.new (0, 1) 999999999
     allowances_in_range.1,
   allowances_in_range.2.2.1 _ (0, 1) 5
     (allowances_in_range.2.1 BandwidthScheduler.new (0, 1) 999999999
       allowances_in_range.1),
   allowances_in_range.2.2.2 BandwidthScheduler.new
     (Block.mk 0 [(0, some (Chunk.mk 0 [] []))]) (fun _ l => l)
     [((0, 0), 4500000)]
     (BandwidthScheduler.mk [((0, 0), 4500000)] [] [(0, 0)] [(0, 0)])
     allowances_in_range.1 rfl⟩
